import Mathlib

/-!
Verification of the dbt-semantics-to-Sigma converter core against its
natural-language specification.

The definitions below are shallow embeddings of the JavaScript sources:
  * `TopologicalSorter.sort`            — utils/topological_sorter.js
  * `SemanticModelAnalyzer.*`           — utils/dag_analyzer.js
  * `findMatchingClosingParen`          — dimensions/utils/findMatchingClosingParen.js
  * `parseFunctionArguments`            — dimensions/utils/parseFunctionArguments.js
  * `convertColumnReferences`           — dimensions/utils/convertColumnReferences.js
  * `convertCase` / `convertSplitPart`  — dimensions/utils/convertCase.js, convertSplitPart.js
  * `convertExpressionToSigma`          — dimensions/formula/build_sigma_formula.js
  * metric resolution (`convertMetricToSigma`, `buildSigmaMeasureFormula`,
    `canAddMetricToModel`, filter utilities) — routes/metrics/*.

JavaScript `Map` iteration order is insertion order, so maps are embedded as
association lists.  JavaScript `null`/`undefined` values are embedded as
`Option.none`.  Where the JavaScript recursion is not structurally decreasing
(metric resolution, expression translation) the embedding is indexed by fuel
and `none` marks a computation that did not complete within the given fuel.
-/

/-! ## Topological layerer (utils/topological_sorter.js)

A dependency map entry is `(modelName, dependsOn)`.  The `modelInfo` fields
(`fileName`, `primaryEntity`, `foreignEntities`) are copied verbatim from the
input into the output layers by the source and play no role in the layering
itself, so they are omitted from the state.  The numeric first component of a
layer mirrors the `layer` field pushed by the source (`1` for the initial
no-dependency layer, `2, 3, …` for the rounds of the while loop). -/

abbrev DepMap := List (String × List String)

namespace TopologicalSorter

/-- `dependsOn.every(dep => previousLayerModels.has(dep))` from the source. -/
def ready (placed : List String) (deps : List String) : Bool :=
  deps.all (fun d => placed.contains d)

lemma length_filter_not_lt {α : Type} (p : α → Bool) (l : List α)
    (h : l.filter p ≠ []) : (l.filter (fun a => !p a)).length < l.length := by
  have hsum := List.length_eq_length_filter_add (l := l) p
  have hpos : 0 < (l.filter p).length := List.length_pos.mpr h
  omega

/-- The `while (this.processed.size < this.dependencies.size)` loop of
`TopologicalSorter.sort`.  `placed` is the set of already-processed model
names (`previousLayerModels`), `remaining` the unprocessed entries of the
dependency map and `k` the value of `currentLayer`.  One round either places
every remaining model whose dependencies are all in `placed`, or — when no
model qualifies — places all remaining models into a single cycle-breaking
layer (after which the loop exits because everything is processed). -/
def sortLoop (placed : List String) (remaining : DepMap) (k : Nat) :
    List (Nat × List String) :=
  if remaining = [] then []
  else
    let readyPart := remaining.filter (fun p => ready placed p.2)
    if hr : readyPart = [] then [(k, remaining.map Prod.fst)]
    else
      (k, readyPart.map Prod.fst) ::
        sortLoop (placed ++ readyPart.map Prod.fst)
          (remaining.filter (fun p => !ready placed p.2)) (k + 1)
termination_by remaining.length
decreasing_by exact length_filter_not_lt _ _ hr

/-- `TopologicalSorter.sort`: the initial layer collects the models with an
empty `dependsOn` list (pushed with layer number 1 only when nonempty), then
the while loop runs with `currentLayer = 2`. -/
def sort (dependencies : DepMap) : List (Nat × List String) :=
  let layer1 := dependencies.filter (fun p => p.2.isEmpty)
  let rest := dependencies.filter (fun p => !p.2.isEmpty)
  (if layer1 = [] then [] else [(1, layer1.map Prod.fst)]) ++
    sortLoop (layer1.map Prod.fst) rest 2

/-- The ordered list of layers (each a list of model names). -/
def layersOf (dependencies : DepMap) : List (List String) :=
  (sort dependencies).map Prod.snd

/-- `S` is a nonempty set of models each of which depends (via the map) on
another member of `S`; this is exactly what a dependency cycle among the
members of `S` provides. -/
def HasCycleSet (dependencies : DepMap) (S : List String) : Prop :=
  S ≠ [] ∧ ∀ m ∈ S, ∃ p ∈ dependencies, p.1 = m ∧ ∃ d ∈ p.2, d ∈ S

/-- Acyclicity of a dependency map: no nonempty subset in which every member
has a dependency inside the subset. -/
def Acyclic (dependencies : DepMap) : Prop :=
  ¬ ∃ S, HasCycleSet dependencies S

lemma ready_nil_iff (deps : List String) : ready [] deps = true ↔ deps = [] := by
  cases deps with
  | nil => simp [ready]
  | cons d l => simp [ready, List.contains]

lemma sortLoop_k_irrelevant_aux :
    ∀ (n : Nat) (remaining : DepMap), remaining.length ≤ n →
      ∀ (placed : List String) (k k' : Nat),
        (sortLoop placed remaining k).map Prod.snd =
          (sortLoop placed remaining k').map Prod.snd := by
  intro n
  induction n with
  | zero =>
      intro remaining h placed k k'
      have : remaining = [] := List.length_eq_zero.mp (Nat.le_zero.mp h)
      simp [sortLoop, this]
  | succ n ih =>
      intro remaining h placed k k'
      by_cases hrem : remaining = []
      · simp [sortLoop, hrem]
      · rw [sortLoop, sortLoop]
        by_cases hr : remaining.filter (fun p => ready placed p.2) = []
        · simp [hrem, hr]
        · simp only [hrem, if_neg, hr, dite_false, dif_neg, List.map_cons,
            List.cons.injEq, ite_false]
          refine ⟨trivial, ih _ ?_ _ _ _⟩
          have hlt : (remaining.filter (fun p => !ready placed p.2)).length <
              remaining.length :=
            length_filter_not_lt (fun p => ready placed p.2) remaining hr
          omega

lemma sortLoop_k_irrelevant (placed : List String) (remaining : DepMap)
    (k k' : Nat) :
    (sortLoop placed remaining k).map Prod.snd =
      (sortLoop placed remaining k').map Prod.snd :=
  sortLoop_k_irrelevant_aux remaining.length remaining le_rfl placed k k'

lemma ready_nil (l : List String) : ready [] l = l.isEmpty := by
  cases l <;> simp [ready, List.contains]

lemma ready_eq_false_iff (placed : List String) (l : List String) :
    ready placed l = false ↔ ∃ d ∈ l, d ∉ placed := by
  simp [ready, List.all_eq_true]

/-- Every run of the loop emits layers that, concatenated, are a permutation
of the keys of the remaining map: every remaining model is placed, and placed
exactly once. -/
lemma sortLoop_flatten_perm :
    ∀ (n : Nat) (remaining : DepMap), remaining.length ≤ n →
    ∀ (placed : List String) (k : Nat),
      List.Perm (((sortLoop placed remaining k).map Prod.snd).flatten)
        (remaining.map Prod.fst) := by
  intro n
  induction n with
  | zero =>
      intro remaining h placed k
      have : remaining = [] := List.length_eq_zero.mp (Nat.le_zero.mp h)
      simp [sortLoop, this]
  | succ n ih =>
      intro remaining h placed k
      by_cases hrem : remaining = []
      · simp [sortLoop, hrem]
      · rw [sortLoop]
        by_cases hr : remaining.filter (fun p => ready placed p.2) = []
        · simp [hrem, hr]
        · simp only [hrem, if_neg, hr, dif_neg, List.map_cons, List.flatten_cons,
            ite_false, dite_false]
          have hlt : (remaining.filter (fun p => !ready placed p.2)).length <
              remaining.length :=
            length_filter_not_lt (fun p => ready placed p.2) remaining hr
          have htail := ih (remaining.filter (fun p => !ready placed p.2))
            (by omega) (placed ++ (remaining.filter
              (fun p => ready placed p.2)).map Prod.fst) (k + 1)
          have hstep := List.Perm.append_left
            ((remaining.filter (fun p => ready placed p.2)).map Prod.fst) htail
          refine hstep.trans ?_
          have hsplit : List.Perm
              (remaining.filter (fun p => ready placed p.2) ++
                remaining.filter (fun p => !ready placed p.2)) remaining :=
            List.filter_append_perm _ _
          have := hsplit.map Prod.fst
          simpa using this

/-- Every name occurring in a layer produced by the loop is a key of the
remaining map. -/
lemma sortLoop_layer_mem :
    ∀ (remaining : DepMap) (placed : List String) (k : Nat)
      (l : List String), l ∈ (sortLoop placed remaining k).map Prod.snd →
      ∀ x ∈ l, x ∈ remaining.map Prod.fst := by
  intro remaining placed k l hl x hx
  have hperm := sortLoop_flatten_perm remaining.length remaining le_rfl placed k
  exact hperm.mem_iff.mp (List.mem_flatten.mpr ⟨l, hl, hx⟩)

/-- When no remaining model is ready, the remaining keys form a cycle set:
each remaining model has a dependency that is itself a remaining key. -/
lemma cycle_of_no_ready (deps remaining : DepMap) (placed : List String)
    (hsub : remaining.Sublist deps)
    (hclosed : ∀ p ∈ deps, ∀ d ∈ p.2, d ∈ deps.map Prod.fst)
    (hcover : ∀ x ∈ deps.map Prod.fst, x ∈ placed ∨ x ∈ remaining.map Prod.fst)
    (hrem : remaining ≠ [])
    (hr : remaining.filter (fun p => ready placed p.2) = []) :
    HasCycleSet deps (remaining.map Prod.fst) := by
  constructor
  · simpa using hrem
  · intro m hm
    obtain ⟨p, hp, hpm⟩ := List.mem_map.mp hm
    have hpd : p ∈ deps := hsub.mem hp
    have hready : ¬ ready placed p.2 = true := List.filter_eq_nil_iff.mp hr p hp
    obtain ⟨d, hd, hdnp⟩ := (ready_eq_false_iff placed p.2).mp
      (Bool.not_eq_true _ ▸ Bool.of_not_eq_true hready)
    refine ⟨p, hpd, hpm, d, hd, ?_⟩
    rcases hcover d (hclosed p hpd d hd) with hc | hc
    · exact absurd hc hdnp
    · exact hc


/-- Key invariant behind the acyclic case: whenever a remaining model `p` is
placed in layer `i` of the loop output, each of its dependencies is either
already in `placed` or sits in a strictly earlier layer of the output. -/
lemma sortLoop_dominance (deps : DepMap)
    (hnd : (deps.map Prod.fst).Nodup)
    (hclosed : ∀ p ∈ deps, ∀ d ∈ p.2, d ∈ deps.map Prod.fst)
    (hacyc : Acyclic deps) :
    ∀ (n : Nat) (remaining : DepMap), remaining.length ≤ n →
    ∀ (placed : List String) (k : Nat),
      remaining.Sublist deps →
      (∀ x ∈ deps.map Prod.fst, x ∈ placed ∨ x ∈ remaining.map Prod.fst) →
      ∀ p ∈ remaining, ∀ d ∈ p.2,
      ∀ i ly, (sortLoop placed remaining k).get? i = some ly → p.1 ∈ ly.2 →
        d ∈ placed ∨ ∃ j ly2, j < i ∧
          (sortLoop placed remaining k).get? j = some ly2 ∧ d ∈ ly2.2 := by
  intro n
  induction n with
  | zero =>
      intro remaining h placed k _ _ p hp
      have : remaining = [] := List.length_eq_zero.mp (Nat.le_zero.mp h)
      subst this
      exact absurd hp (List.not_mem_nil p)
  | succ n ih =>
      intro remaining h placed k hsub hcover p hp d hd i ly hly hpi
      by_cases hrem : remaining = []
      · subst hrem; exact absurd hp (List.not_mem_nil p)
      by_cases hr : remaining.filter (fun p => ready placed p.2) = []
      · exact absurd ⟨remaining.map Prod.fst,
          cycle_of_no_ready deps remaining placed hsub hclosed hcover hrem hr⟩ hacyc
      -- the loop emits a normal layer
      have hndrem : (remaining.map Prod.fst).Nodup := hnd.sublist (hsub.map Prod.fst)
      have heq : sortLoop placed remaining k =
          (k, (remaining.filter (fun p => ready placed p.2)).map Prod.fst) ::
            sortLoop (placed ++ (remaining.filter
              (fun p => ready placed p.2)).map Prod.fst)
              (remaining.filter (fun p => !ready placed p.2)) (k + 1) := by
        rw [sortLoop]; simp [hrem, hr]
      by_cases hready : ready placed p.2 = true
      · left
        have hall : p.2.all (fun d => placed.contains d) = true := hready
        have := (List.all_eq_true).mp hall d hd
        simpa using this
      -- p is not ready, hence p survives into the unprocessed rest
      have hpf : p ∈ remaining.filter (fun q => !ready placed q.2) :=
        List.mem_filter.mpr ⟨hp, by simp [hready]⟩
      rw [heq] at hly
      cases i with
      | zero =>
          exfalso
          simp only [List.get?_cons_zero, Option.some.injEq] at hly
          subst hly
          obtain ⟨q, hq, hqp⟩ := List.mem_map.mp hpi
          have hq1 : q ∈ remaining := (List.mem_filter.mp hq).1
          have : q = p := List.inj_on_of_nodup_map hndrem hq1 hp hqp
          subst this
          have := (List.mem_filter.mp hq).2
          simp [hready] at this
      | succ i =>
          simp only [List.get?_cons_succ] at hly
          have hlt : (remaining.filter (fun q => !ready placed q.2)).length <
              remaining.length :=
            length_filter_not_lt (fun q => ready placed q.2) remaining hr
          have hsub2 : (remaining.filter (fun q => !ready placed q.2)).Sublist deps :=
            (List.filter_sublist remaining).trans hsub
          have hcover2 : ∀ x ∈ deps.map Prod.fst,
              x ∈ placed ++ (remaining.filter (fun q => ready placed q.2)).map Prod.fst ∨
              x ∈ (remaining.filter (fun q => !ready placed q.2)).map Prod.fst := by
            intro x hx
            rcases hcover x hx with hc | hc
            · exact Or.inl (List.mem_append.mpr (Or.inl hc))
            · obtain ⟨q, hq, hqx⟩ := List.mem_map.mp hc
              by_cases hqr : ready placed q.2 = true
              · exact Or.inl (List.mem_append.mpr (Or.inr
                  (List.mem_map.mpr ⟨q, List.mem_filter.mpr ⟨hq, hqr⟩, hqx⟩)))
              · exact Or.inr (List.mem_map.mpr
                  ⟨q, List.mem_filter.mpr ⟨hq, by simp [hqr]⟩, hqx⟩)
          have hres := ih (remaining.filter (fun q => !ready placed q.2)) (by omega)
            (placed ++ (remaining.filter (fun q => ready placed q.2)).map Prod.fst)
            (k + 1) hsub2 hcover2 p hpf d hd i ly hly hpi
          rcases hres with hplaced | ⟨j, ly2, hji, hly2, hdj⟩
          · rcases List.mem_append.mp hplaced with hc | hc
            · exact Or.inl hc
            · refine Or.inr ⟨0, (k, (remaining.filter
                (fun q => ready placed q.2)).map Prod.fst),
                Nat.succ_pos i, ?_, hc⟩
              rw [heq]
              simp
          · refine Or.inr ⟨j + 1, ly2, Nat.succ_lt_succ hji, ?_, hdj⟩
            rw [heq]
            simpa using hly2

lemma layersOf_eq (deps : DepMap) :
    layersOf deps = (sortLoop [] deps 1).map Prod.snd := by
  have hfe : deps.filter (fun p => ready [] p.2) =
      deps.filter (fun p => p.2.isEmpty) :=
    List.filter_congr (fun p _ => by rw [ready_nil])
  have hfne : deps.filter (fun p => !ready [] p.2) =
      deps.filter (fun p => !p.2.isEmpty) :=
    List.filter_congr (fun p _ => by rw [ready_nil])
  by_cases hdeps : deps = []
  · subst hdeps
    simp [layersOf, sort, sortLoop]
  · by_cases hl1 : deps.filter (fun p => p.2.isEmpty) = []
    · have hrest : deps.filter (fun p => !p.2.isEmpty) = deps :=
        List.filter_eq_self.mpr (fun p hp => by
          have := List.filter_eq_nil_iff.mp hl1 p hp
          simpa using this)
      have hlhs : layersOf deps = (sortLoop [] deps 2).map Prod.snd := by
        rw [layersOf, sort]
        simp [hl1, hrest]
      have h2 : sortLoop [] deps 2 = [(2, deps.map Prod.fst)] := by
        rw [sortLoop]
        simp [hdeps, hfe, hl1]
      have h1 : sortLoop [] deps 1 = [(1, deps.map Prod.fst)] := by
        rw [sortLoop]
        simp [hdeps, hfe, hl1]
      rw [hlhs, h2, h1]
      simp
    · have hrhs : sortLoop [] deps 1 =
          (1, (deps.filter (fun p => p.2.isEmpty)).map Prod.fst) ::
            sortLoop ((deps.filter (fun p => p.2.isEmpty)).map Prod.fst)
              (deps.filter (fun p => !p.2.isEmpty)) 2 := by
        rw [sortLoop]
        simp [hdeps, hfe, hfne, hl1]
      rw [layersOf, sort, hrhs]
      simp [hl1]

lemma layersOf_flatten_perm (deps : DepMap) :
    List.Perm (layersOf deps).flatten (deps.map Prod.fst) := by
  rw [layersOf_eq]
  exact sortLoop_flatten_perm deps.length deps le_rfl [] 1

lemma layers_mem_unique (deps : DepMap)
    (hnd : (deps.map Prod.fst).Nodup) :
    ∀ m : String, ∀ i j : Fin (layersOf deps).length,
      m ∈ (layersOf deps).get i → m ∈ (layersOf deps).get j → i = j := by
  intro m i j hi hj
  have hperm := layersOf_flatten_perm deps
  have hnodupF : (layersOf deps).flatten.Nodup := hperm.nodup_iff.mpr hnd
  have hdisj := (List.nodup_flatten.mp hnodupF).2
  have hget := List.pairwise_iff_get.mp hdisj
  rcases Nat.lt_trichotomy i.val j.val with h | h | h
  · exact absurd hj (hget i j h hi)
  · exact Fin.ext h
  · exact absurd hi (hget j i h hj)

lemma layersOf_get? (deps : DepMap) (i : Nat) :
    (layersOf deps).get? i = ((sortLoop [] deps 1).get? i).map Prod.snd := by
  rw [layersOf_eq]
  exact List.get?_map Prod.snd (sortLoop [] deps 1) i

/-- AMENDED C1 (theorem).  For every acyclic dependency map with distinct
model names whose dependency names all occur as keys of the map, the layerer
assigns every model to exactly one layer, and every dependency of a model
sits in a strictly earlier layer than the model itself (hence the model's
layer index strictly exceeds the maximum layer index over its `dependsOn`
set).  The closedness condition is necessary: without it the dominance part
fails (see the counterexample below) — a model whose dependency list names
something that is not a key never becomes ready, so it falls into the
single fallback layer together with its own dependents. -/
theorem layerer_acyclic_unique_layer_and_dominance (deps : DepMap)
    (hnd : (deps.map Prod.fst).Nodup)
    (hclosed : ∀ p ∈ deps, ∀ d ∈ p.2, d ∈ deps.map Prod.fst)
    (hacyc : TopologicalSorter.Acyclic deps) :
    (∀ m ∈ deps.map Prod.fst, ∃! i : Fin (TopologicalSorter.layersOf deps).length,
        m ∈ (TopologicalSorter.layersOf deps).get i) ∧
    (∀ p ∈ deps, ∀ d ∈ p.2, ∀ i j : Fin (TopologicalSorter.layersOf deps).length,
        p.1 ∈ (TopologicalSorter.layersOf deps).get i →
        d ∈ (TopologicalSorter.layersOf deps).get j → j < i) := by
  constructor
  · intro m hm
    have hperm := layersOf_flatten_perm deps
    have hmf : m ∈ (layersOf deps).flatten := hperm.mem_iff.mpr hm
    obtain ⟨l, hl, hml⟩ := List.mem_flatten.mp hmf
    obtain ⟨i, hi⟩ := List.mem_iff_get.mp hl
    refine ⟨i, ?_, ?_⟩
    · show m ∈ (layersOf deps).get i
      rw [hi]; exact hml
    · intro j hj
      refine layers_mem_unique deps hnd m j i hj ?_
      show m ∈ (layersOf deps).get i
      rw [hi]; exact hml
  · intro p hp d hd i j hpi hdj
    -- move to `get?` form on the unfolded loop
    have hv : (layersOf deps).get? i.val = some ((layersOf deps).get i) :=
      List.get?_eq_get i.isLt
    rw [layersOf_get?] at hv
    obtain ⟨ly, hly, hlysnd⟩ := Option.map_eq_some'.mp hv
    have hpi2 : p.1 ∈ ly.2 := by rw [hlysnd]; exact hpi
    have hdom := sortLoop_dominance deps hnd hclosed hacyc deps.length deps le_rfl
      [] 1 (List.Sublist.refl deps) (fun x hx => Or.inr hx) p hp d hd
      i.val ly hly hpi2
    rcases hdom with hmem | ⟨j2, ly2, hj2i, hly2, hdly2⟩
    · exact absurd hmem (List.not_mem_nil d)
    · have hj2 : (layersOf deps).get? j2 = some ly2.2 := by
        rw [layersOf_get?, hly2]
        rfl
      obtain ⟨hj2lt, hj2get⟩ := List.get?_eq_some.mp hj2
      have hdj2 : d ∈ (layersOf deps).get ⟨j2, hj2lt⟩ := by
        rw [hj2get]; exact hdly2
      have heq : j = ⟨j2, hj2lt⟩ :=
        layers_mem_unique deps hnd d j ⟨j2, hj2lt⟩ hdj hdj2
      have : j.val = j2 := by rw [heq]
      have hlt : j.val < i.val := by rw [this]; exact hj2i
      exact hlt

/-- A small concrete acyclic dependency map: model `b` depends on model `a`. -/
def exampleAcyclicDeps : DepMap := [("a", []), ("b", ["a"])]

lemma exampleAcyclicDeps_acyclic : Acyclic exampleAcyclicDeps := by
  rintro ⟨S, hS, hmem⟩
  have ha : "a" ∉ S := by
    intro haS
    obtain ⟨p, hp, hpa, d, hd, hdS⟩ := hmem "a" haS
    have hp2 : p = ("a", []) ∨ p = ("b", ["a"]) := by simpa [exampleAcyclicDeps] using hp
    rcases hp2 with rfl | rfl
    · exact absurd hd (List.not_mem_nil d)
    · exact absurd hpa (by decide)
  have hb : "b" ∉ S := by
    intro hbS
    obtain ⟨p, hp, hpb, d, hd, hdS⟩ := hmem "b" hbS
    have hp2 : p = ("a", []) ∨ p = ("b", ["a"]) := by simpa [exampleAcyclicDeps] using hp
    rcases hp2 with rfl | rfl
    · exact absurd hd (List.not_mem_nil d)
    · have hd2 : d = "a" := by simpa using hd
      rw [hd2] at hdS
      exact ha hdS
  obtain ⟨m, hm⟩ := List.exists_mem_of_ne_nil S hS
  obtain ⟨p, hp, hpm, _⟩ := hmem m hm
  have hp2 : p = ("a", []) ∨ p = ("b", ["a"]) := by simpa [exampleAcyclicDeps] using hp
  rcases hp2 with rfl | rfl
  · simp only at hpm
    rw [← hpm] at hm
    exact ha hm
  · simp only at hpm
    rw [← hpm] at hm
    exact hb hm

/-- Witness for the amended C1: the hypotheses hold of `exampleAcyclicDeps`
and the theorem applies to it. -/
theorem layerer_acyclic_unique_layer_and_dominance_witness :
    ((exampleAcyclicDeps.map Prod.fst).Nodup ∧
      (∀ p ∈ exampleAcyclicDeps, ∀ d ∈ p.2, d ∈ exampleAcyclicDeps.map Prod.fst) ∧
      TopologicalSorter.Acyclic exampleAcyclicDeps) ∧
    ((∀ m ∈ exampleAcyclicDeps.map Prod.fst,
        ∃! i : Fin (TopologicalSorter.layersOf exampleAcyclicDeps).length,
          m ∈ (TopologicalSorter.layersOf exampleAcyclicDeps).get i) ∧
      (∀ p ∈ exampleAcyclicDeps, ∀ d ∈ p.2,
        ∀ i j : Fin (TopologicalSorter.layersOf exampleAcyclicDeps).length,
          p.1 ∈ (TopologicalSorter.layersOf exampleAcyclicDeps).get i →
          d ∈ (TopologicalSorter.layersOf exampleAcyclicDeps).get j → j < i)) :=
  ⟨⟨by decide, by decide, exampleAcyclicDeps_acyclic⟩,
    layerer_acyclic_unique_layer_and_dominance exampleAcyclicDeps
      (by decide) (by decide) exampleAcyclicDeps_acyclic⟩

/-- An acyclic map that is not closed: model `b` depends on the dangling
name `x`, which is not a key of the map, and model `a` depends on `b`. -/
def exampleDanglingDeps : DepMap := [("b", ["x"]), ("a", ["b"])]

lemma exampleDanglingDeps_acyclic : Acyclic exampleDanglingDeps := by
  rintro ⟨S, hS, hmem⟩
  have hx : "x" ∉ S := by
    intro hxS
    obtain ⟨p, hp, hpx, d, hd, hdS⟩ := hmem "x" hxS
    have hp2 : p = ("b", ["x"]) ∨ p = ("a", ["b"]) := by
      simpa [exampleDanglingDeps] using hp
    rcases hp2 with rfl | rfl
    · exact absurd hpx (by decide)
    · exact absurd hpx (by decide)
  have hb : "b" ∉ S := by
    intro hbS
    obtain ⟨p, hp, hpb, d, hd, hdS⟩ := hmem "b" hbS
    have hp2 : p = ("b", ["x"]) ∨ p = ("a", ["b"]) := by
      simpa [exampleDanglingDeps] using hp
    rcases hp2 with rfl | rfl
    · have hd2 : d = "x" := by simpa using hd
      rw [hd2] at hdS
      exact hx hdS
    · exact absurd hpb (by decide)
  have ha : "a" ∉ S := by
    intro haS
    obtain ⟨p, hp, hpa, d, hd, hdS⟩ := hmem "a" haS
    have hp2 : p = ("b", ["x"]) ∨ p = ("a", ["b"]) := by
      simpa [exampleDanglingDeps] using hp
    rcases hp2 with rfl | rfl
    · exact absurd hpa (by decide)
    · have hd2 : d = "b" := by simpa using hd
      rw [hd2] at hdS
      exact hb hdS
  obtain ⟨m, hm⟩ := List.exists_mem_of_ne_nil S hS
  obtain ⟨p, hp, hpm, _⟩ := hmem m hm
  have hp2 : p = ("b", ["x"]) ∨ p = ("a", ["b"]) := by
    simpa [exampleDanglingDeps] using hp
  rcases hp2 with rfl | rfl
  · simp only at hpm
    rw [← hpm] at hm
    exact hb hm
  · simp only at hpm
    rw [← hpm] at hm
    exact ha hm

/-- On the dangling map neither model is ever ready (`b` waits for the
non-key `x`, `a` waits for `b`), so the very first loop round is the
fallback round and everything lands in one layer. -/
lemma exampleDanglingDeps_layers :
    layersOf exampleDanglingDeps = [["b", "a"]] := by
  have h1 : exampleDanglingDeps.filter (fun p => p.2.isEmpty) = [] := by decide
  have h2 : exampleDanglingDeps.filter (fun p => !p.2.isEmpty) =
      exampleDanglingDeps := by decide
  rw [layersOf, sort, h1, h2]
  rw [sortLoop]
  simp +decide [exampleDanglingDeps, ready]

/-- COUNTEREXAMPLE to C1.  The claim quantifies over every acyclic
dependency map, but on the acyclic map `[("b", ["x"]), ("a", ["b"])]` —
whose dependency name `x` is not a key, exactly the shape the dependency
graph builder produces, since it records entity names in `dependsOn` while
the sorter's keys are model names — no model is ever ready, the sorter
emits the single fallback layer `["b", "a"]`, and the model `a` shares that
layer with its dependency `b`: the layer index of `a` is not strictly
greater than that of `b`. -/
theorem layerer_acyclic_dominance_counterexample :
    Acyclic exampleDanglingDeps ∧
    ¬ ((∀ m ∈ exampleDanglingDeps.map Prod.fst,
          ∃! i : Fin (layersOf exampleDanglingDeps).length,
            m ∈ (layersOf exampleDanglingDeps).get i) ∧
       (∀ p ∈ exampleDanglingDeps, ∀ d ∈ p.2,
          ∀ i j : Fin (layersOf exampleDanglingDeps).length,
            p.1 ∈ (layersOf exampleDanglingDeps).get i →
            d ∈ (layersOf exampleDanglingDeps).get j → j < i)) := by
  refine ⟨exampleDanglingDeps_acyclic, ?_⟩
  rintro ⟨-, hdom⟩
  have h0 : 0 < (layersOf exampleDanglingDeps).length := by
    rw [exampleDanglingDeps_layers]; decide
  have hget : (layersOf exampleDanglingDeps).get ⟨0, h0⟩ = ["b", "a"] := by
    have := List.get_of_eq exampleDanglingDeps_layers ⟨0, h0⟩
    rw [this]
    rfl
  have hlt := hdom ("a", ["b"]) (by decide) "b" (by decide) ⟨0, h0⟩ ⟨0, h0⟩
    (by rw [hget]; decide) (by rw [hget]; decide)
  exact absurd hlt (lt_irrefl _)

lemma getLast?_cons_ne {α : Type} (a : α) (l : List α) (h : l ≠ []) :
    (a :: l).getLast? = l.getLast? := by
  cases l <;> simp_all

lemma dropLast_cons_ne {α : Type} (a : α) (l : List α) (h : l ≠ []) :
    (a :: l).dropLast = a :: l.dropLast := by
  cases l <;> simp_all

/-- Key invariant behind the cycle case: members of a cycle set are never
ready, so they survive every normal round and all end up together in the
final (fallback) layer — and in no earlier layer. -/
lemma sortLoop_cycle (deps : DepMap)
    (hnd : (deps.map Prod.fst).Nodup)
    (S : List String) (hS : S ≠ [])
    (hcyc : ∀ m ∈ S, ∃ p ∈ deps, p.1 = m ∧ ∃ d ∈ p.2, d ∈ S) :
    ∀ (n : Nat) (remaining : DepMap), remaining.length ≤ n →
    ∀ (placed : List String) (k : Nat),
      remaining.Sublist deps →
      (∀ p ∈ deps, p.1 ∉ placed → p ∈ remaining) →
      (∀ m ∈ S, m ∉ placed) →
      ∃ L, (sortLoop placed remaining k).getLast? = some L ∧
        (∀ m ∈ S, m ∈ L.2) ∧
        ∀ l ∈ (sortLoop placed remaining k).dropLast, ∀ m ∈ S, m ∉ l.2 := by
  intro n
  induction n with
  | zero =>
      intro remaining h placed k hsub hJ1 hJ2
      exfalso
      have hrem : remaining = [] := List.length_eq_zero.mp (Nat.le_zero.mp h)
      obtain ⟨m, hm⟩ := List.exists_mem_of_ne_nil S hS
      obtain ⟨p, hp, hpm, _⟩ := hcyc m hm
      have : p ∈ remaining := hJ1 p hp (by rw [hpm]; exact hJ2 m hm)
      rw [hrem] at this
      exact absurd this (List.not_mem_nil p)
  | succ n ih =>
      intro remaining h placed k hsub hJ1 hJ2
      by_cases hrem : remaining = []
      · exfalso
        obtain ⟨m, hm⟩ := List.exists_mem_of_ne_nil S hS
        obtain ⟨p, hp, hpm, _⟩ := hcyc m hm
        have : p ∈ remaining := hJ1 p hp (by rw [hpm]; exact hJ2 m hm)
        rw [hrem] at this
        exact absurd this (List.not_mem_nil p)
      by_cases hr : remaining.filter (fun p => ready placed p.2) = []
      · -- fallback round: all remaining models into one final layer
        have heq : sortLoop placed remaining k = [(k, remaining.map Prod.fst)] := by
          rw [sortLoop]; simp [hrem, hr]
        refine ⟨(k, remaining.map Prod.fst), by rw [heq]; rfl, ?_, by rw [heq]; simp⟩
        intro m hm
        obtain ⟨p, hp, hpm, _⟩ := hcyc m hm
        have hprem : p ∈ remaining := hJ1 p hp (by rw [hpm]; exact hJ2 m hm)
        exact List.mem_map.mpr ⟨p, hprem, hpm⟩
      · -- a normal round: no member of the cycle set is ready
        have heq : sortLoop placed remaining k =
            (k, (remaining.filter (fun p => ready placed p.2)).map Prod.fst) ::
              sortLoop (placed ++ (remaining.filter
                (fun p => ready placed p.2)).map Prod.fst)
                (remaining.filter (fun p => !ready placed p.2)) (k + 1) := by
          rw [sortLoop]; simp [hrem, hr]
        have hJ2next : ∀ m ∈ S, m ∉ placed ++ (remaining.filter
            (fun p => ready placed p.2)).map Prod.fst := by
          intro m hm hmem
          rcases List.mem_append.mp hmem with hc | hc
          · exact hJ2 m hm hc
          · obtain ⟨q, hq, hqm⟩ := List.mem_map.mp hc
            have hq1 : q ∈ remaining := (List.mem_filter.mp hq).1
            have hqready : ready placed q.2 = true := (List.mem_filter.mp hq).2
            obtain ⟨p, hp, hpm, d, hd, hdS⟩ := hcyc m hm
            have hpq : p = q := List.inj_on_of_nodup_map hnd hp (hsub.mem hq1)
              (by rw [hpm, hqm])
            rw [hpq] at hd
            have : q.2.all (fun d => placed.contains d) = true := hqready
            have hdp := (List.all_eq_true).mp this d hd
            have hdp2 : d ∈ placed := by simpa using hdp
            exact hJ2 d hdS hdp2
        have hJ1next : ∀ p ∈ deps, p.1 ∉ placed ++ (remaining.filter
            (fun q => ready placed q.2)).map Prod.fst →
            p ∈ remaining.filter (fun q => !ready placed q.2) := by
          intro p hp hnp
          have hp1 : p.1 ∉ placed := fun hc => hnp (List.mem_append.mpr (Or.inl hc))
          have hprem : p ∈ remaining := hJ1 p hp hp1
          by_cases hpr : ready placed p.2 = true
          · exact absurd (List.mem_append.mpr (Or.inr (List.mem_map.mpr
              ⟨p, List.mem_filter.mpr ⟨hprem, hpr⟩, rfl⟩))) hnp
          · exact List.mem_filter.mpr ⟨hprem, by simp [hpr]⟩
        have hlt : (remaining.filter (fun q => !ready placed q.2)).length <
            remaining.length :=
          length_filter_not_lt (fun q => ready placed q.2) remaining hr
        obtain ⟨L, hlast, hmemS, hdrop⟩ := ih
          (remaining.filter (fun q => !ready placed q.2)) (by omega)
          (placed ++ (remaining.filter (fun q => ready placed q.2)).map Prod.fst)
          (k + 1) ((List.filter_sublist remaining).trans hsub) hJ1next hJ2next
        have htail_ne : sortLoop (placed ++ (remaining.filter
            (fun q => ready placed q.2)).map Prod.fst)
            (remaining.filter (fun q => !ready placed q.2)) (k + 1) ≠ [] := by
          intro hc
          rw [hc] at hlast
          simp at hlast
        refine ⟨L, ?_, hmemS, ?_⟩
        · rw [heq, getLast?_cons_ne _ _ htail_ne]
          exact hlast
        · rw [heq, dropLast_cons_ne _ _ htail_ne]
          intro l hl m hm
          rcases List.mem_cons.mp hl with hl2 | hl2
          · intro hc
            rw [hl2] at hc
            exact hJ2next m hm (List.mem_append.mpr (Or.inr hc))
          · exact hdrop l hl2 m hm

/-- CLAIM C2.  For every dependency map (with distinct model names)
containing a cycle among a nonempty subset `S`, the layerer terminates
(`sort` is a total function), every member of `S` ends up in one shared
layer, that layer is the final layer of the output, and no member of `S`
occurs in any earlier layer.  (The source reports this situation with a
`console.warn` naming the involved models; it never throws.) -/
theorem layerer_cycle_shared_final_layer (deps : DepMap)
    (hnd : (deps.map Prod.fst).Nodup)
    (S : List String) (hcycle : TopologicalSorter.HasCycleSet deps S) :
    ∃ L, (TopologicalSorter.sort deps).getLast? = some L ∧
      (∀ m ∈ S, m ∈ L.2) ∧
      ∀ l ∈ (TopologicalSorter.sort deps).dropLast, ∀ m ∈ S, m ∉ l.2 := by
  obtain ⟨hS, hcyc⟩ := hcycle
  have hSl1 : ∀ m ∈ S, m ∉ (deps.filter (fun p => p.2.isEmpty)).map Prod.fst := by
    intro m hm hmem
    obtain ⟨q, hq, hqm⟩ := List.mem_map.mp hmem
    have hq1 : q ∈ deps := (List.mem_filter.mp hq).1
    have hq2 : q.2 = [] := by
      have := (List.mem_filter.mp hq).2
      simpa using this
    obtain ⟨p, hp, hpm, d, hd, _⟩ := hcyc m hm
    have hpq : p = q := List.inj_on_of_nodup_map hnd hp hq1 (by rw [hpm, hqm])
    rw [hpq, hq2] at hd
    exact absurd hd (List.not_mem_nil d)
  have hJ1 : ∀ p ∈ deps,
      p.1 ∉ (deps.filter (fun q => q.2.isEmpty)).map Prod.fst →
      p ∈ deps.filter (fun q => !q.2.isEmpty) := by
    intro p hp hnp
    by_cases hpe : p.2.isEmpty
    · exact absurd (List.mem_map.mpr ⟨p, List.mem_filter.mpr ⟨hp, hpe⟩, rfl⟩) hnp
    · exact List.mem_filter.mpr ⟨hp, by simp [hpe]⟩
  obtain ⟨L, hlast, hmemS, hdrop⟩ := sortLoop_cycle deps hnd S hS hcyc
    (deps.filter (fun q => !q.2.isEmpty)).length
    (deps.filter (fun q => !q.2.isEmpty)) le_rfl
    ((deps.filter (fun q => q.2.isEmpty)).map Prod.fst) 2
    (List.filter_sublist deps) hJ1 hSl1
  have hSL_ne : sortLoop ((deps.filter (fun q => q.2.isEmpty)).map Prod.fst)
      (deps.filter (fun q => !q.2.isEmpty)) 2 ≠ [] := by
    intro hc
    rw [hc] at hlast
    simp at hlast
  by_cases hl1 : deps.filter (fun p => p.2.isEmpty) = []
  · refine ⟨L, ?_, hmemS, ?_⟩
    · rw [sort]
      simp only [hl1, ite_true, if_pos, List.nil_append]
      rw [hl1] at hlast
      simpa using hlast
    · rw [sort]
      simp only [hl1, ite_true, if_pos, List.nil_append]
      intro l hl m hm
      have := hdrop l (by rw [hl1]; simpa using hl) m hm
      exact this
  · have hsort : TopologicalSorter.sort deps =
        (1, (deps.filter (fun p => p.2.isEmpty)).map Prod.fst) ::
          sortLoop ((deps.filter (fun p => p.2.isEmpty)).map Prod.fst)
            (deps.filter (fun p => !p.2.isEmpty)) 2 := by
      rw [sort]
      simp [hl1]
    refine ⟨L, ?_, hmemS, ?_⟩
    · rw [hsort, getLast?_cons_ne _ _ hSL_ne]
      exact hlast
    · rw [hsort, dropLast_cons_ne _ _ hSL_ne]
      intro l hl m hm
      rcases List.mem_cons.mp hl with hl2 | hl2
      · intro hc
        rw [hl2] at hc
        exact hSl1 m hm hc
      · exact hdrop l hl2 m hm

/-- A concrete two-model cycle: `a` and `b` depend on each other. -/
def exampleCyclicDeps : DepMap := [("a", ["b"]), ("b", ["a"])]

/-- Witness for C2: the hypotheses hold of `exampleCyclicDeps` with the
cycle set `["a", "b"]`, and the theorem applies to it. -/
theorem layerer_cycle_shared_final_layer_witness :
    ((exampleCyclicDeps.map Prod.fst).Nodup ∧
      TopologicalSorter.HasCycleSet exampleCyclicDeps ["a", "b"]) ∧
    (∃ L, (TopologicalSorter.sort exampleCyclicDeps).getLast? = some L ∧
      (∀ m ∈ ["a", "b"], m ∈ L.2) ∧
      ∀ l ∈ (TopologicalSorter.sort exampleCyclicDeps).dropLast,
        ∀ m ∈ ["a", "b"], m ∉ l.2) :=
  ⟨⟨by decide, by constructor <;> decide⟩,
    layerer_cycle_shared_final_layer exampleCyclicDeps (by decide) ["a", "b"]
      (by constructor <;> decide)⟩

end TopologicalSorter

/-! ## Dependency graph builder (utils/dag_analyzer.js)

`parseSemanticModel` turns each semantic model of a YAML file into a
`ModelInfo` record; `buildDependencyGraph` then turns the analyzed models
into the dependency map consumed by the topological sorter.  File I/O and
YAML decoding are out of scope; the entity→(file, owning model) index built
by `buildEntityToFileMap` is taken as an input association list. -/

namespace SemanticModelAnalyzer

structure Entity where
  name : String
  type : String
  expr : Option String
  deriving Repr, DecidableEq

/-- The `foreignEntityDef` object built in `parseSemanticModel`:
`file`/`semanticModelName` are `none` when the entity name is not found in
the entity→file index. -/
structure ForeignEntityDef where
  name : String
  expr : Option String
  file : Option String
  semanticModelName : Option String
  deriving Repr, DecidableEq

structure ModelInfo where
  fileName : String
  name : String
  primaryEntity : Option String
  foreignEntities : List ForeignEntityDef
  allEntities : List String
  deriving Repr, DecidableEq

/-- A source semantic model as far as entity analysis is concerned. -/
structure SemanticModelSrc where
  name : String
  entities : List Entity
  deriving Repr, DecidableEq

/-- `this.entityToFileMap.get(name)`: the index maps an entity name to the
`(fileName, semanticModelName)` pair of the model declaring it as a
primary/unique entity. -/
def indexLookup (entityToFileMap : List (String × String × String))
    (name : String) : Option (String × String) :=
  (entityToFileMap.find? (fun e => e.1 = name)).map Prod.snd

/-- The body of the `semanticModel.entities.forEach` loop of
`parseSemanticModel` (lines 83–108): records every entity name, the last
primary entity, and one `foreignEntityDef` per foreign entity (resolved
against the index when possible, with `null` markers otherwise). -/
def processEntity (entityToFileMap : List (String × String × String))
    (mi : ModelInfo) (entity : Entity) : ModelInfo :=
  let mi := { mi with allEntities := mi.allEntities ++ [entity.name] }
  if entity.type = "primary" then
    { mi with primaryEntity := some entity.name }
  else if entity.type = "foreign" then
    let definitionInfo := indexLookup entityToFileMap entity.name
    { mi with foreignEntities := mi.foreignEntities ++
        [{ name := entity.name
           expr := entity.expr
           file := definitionInfo.map Prod.fst
           semanticModelName := definitionInfo.map Prod.snd }] }
  else
    mi

/-- The per-semantic-model body of `parseSemanticModel` (lines 71–112). -/
def parseModelInfo (entityToFileMap : List (String × String × String))
    (fileName : String) (sm : SemanticModelSrc) : ModelInfo :=
  sm.entities.foldl (processEntity entityToFileMap)
    { fileName := fileName
      name := sm.name
      primaryEntity := none
      foreignEntities := []
      allEntities := [] }

/-- One record of the dependency map: `(modelName, dependsOn, dependents)`. -/
abbrev DepRecord := String × List String × List String

/-- `this.dependencies.get(dependency).dependents.push(modelName)`. -/
def pushDependent (recs : List DepRecord) (dep modelName : String) :
    List DepRecord :=
  recs.map (fun r => if r.1 = dep then (r.1, r.2.1, r.2.2 ++ [modelName]) else r)

/-- `SemanticModelAnalyzer.buildDependencyGraph` (lines 251–277): the first
pass sets `dependsOn` to the list of foreign-entity *names* of each model
(the `typeof fe === 'string' ? fe : fe.name` extraction; here the entries
are always objects, so it is `fe.name`); the second pass inverts the edges
into `dependents` for every dependency name that is a key of the map. -/
def buildDependencyGraph (models : List ModelInfo) : List DepRecord :=
  let base : List DepRecord :=
    models.map (fun mi => (mi.name, mi.foreignEntities.map (·.name), []))
  base.foldl
    (fun acc entry =>
      entry.2.1.foldl
        (fun acc2 dependency =>
          if acc2.any (fun r => r.1 = dependency) then
            pushDependent acc2 dependency entry.1
          else acc2)
        acc)
    base

/-- `dependsOn` of a given model name in the built graph. -/
def dependsOnOf (recs : List DepRecord) (modelName : String) :
    Option (List String) :=
  (recs.find? (fun r => r.1 = modelName)).map (fun r => r.2.1)

end SemanticModelAnalyzer

namespace SemanticModelAnalyzer

/-- Entity index: `customer` is declared primary/unique by model `customers`
in file `customers_file`. -/
def exampleIndex : List (String × String × String) :=
  [("customer", "customers_file", "customers")]

/-- Model `orders` with a resolvable foreign entity `customer` (owned by
model `customers`) and an unresolvable foreign entity `ghost`. -/
def ordersSrc : SemanticModelSrc :=
  { name := "orders"
    entities :=
      [{ name := "order_id", type := "primary", expr := none },
       { name := "customer", type := "foreign", expr := none },
       { name := "ghost", type := "foreign", expr := none }] }

def exampleGraph : List DepRecord :=
  buildDependencyGraph [parseModelInfo exampleIndex "orders_file" ordersSrc]

/-- COUNTEREXAMPLE to C3.  The builder records the foreign-entity *names*
(`customer`, `ghost`) as `dependsOn`, not the owning-model names: the
unresolved entity `ghost` (absent from the primary/unique index) is *not*
excluded, and the owning model name `customers` of the resolved entity does
not appear.  Hence `dependsOn` neither equals the set of distinct
owning-model names nor contains only names present as primary/unique
entities elsewhere. -/
theorem buildDependencyGraph_claim_counterexample :
    dependsOnOf exampleGraph "orders" = some ["customer", "ghost"] ∧
    indexLookup exampleIndex "ghost" = none ∧
    "ghost" ∈ ["customer", "ghost"] ∧
    "customers" ∉ ["customer", "ghost"] := by
  refine ⟨?_, by decide, by decide, by decide⟩
  decide

lemma foldl_preserves {α β γ : Type} (f : α → γ) (step : α → β → α)
    (h : ∀ a b, f (step a b) = f a) :
    ∀ (l : List β) (a : α), f (l.foldl step a) = f a := by
  intro l
  induction l with
  | nil => intro a; rfl
  | cons b l ih => intro a; rw [List.foldl_cons, ih, h]

lemma pushDependent_preserves (recs : List DepRecord) (dep modelName : String) :
    (pushDependent recs dep modelName).map (fun r => (r.1, r.2.1)) =
      recs.map (fun r => (r.1, r.2.1)) := by
  rw [pushDependent, List.map_map]
  refine List.map_congr_left ?_
  intro r _
  by_cases h : r.1 = dep <;> simp [h]

lemma processEntity_foreign (index : List (String × String × String)) :
    ∀ (es : List Entity) (acc : ModelInfo),
      (es.foldl (processEntity index) acc).foreignEntities =
        acc.foreignEntities ++
          (es.filter (fun e => e.type = "foreign")).map
            (fun e =>
              { name := e.name
                expr := e.expr
                file := (indexLookup index e.name).map Prod.fst
                semanticModelName := (indexLookup index e.name).map Prod.snd }) := by
  intro es
  induction es with
  | nil => intro acc; simp
  | cons e es ih =>
      intro acc
      rw [List.foldl_cons, List.filter_cons]
      by_cases h1 : e.type = "primary"
      · have h2 : ¬ e.type = "foreign" := by rw [h1]; decide
        simp only [processEntity, h1, h2, ite_true, ite_false, if_pos, if_neg,
          decide_eq_true_eq, decide_eq_false_iff_not, ih]
        simp [h2]
      · by_cases h2 : e.type = "foreign"
        · simp only [processEntity, h1, h2, ite_true, ite_false, if_pos, if_neg, ih]
          simp [h2, List.append_assoc]
        · simp only [processEntity, h1, h2, ite_true, ite_false, if_pos, if_neg, ih]
          simp [h2]

/-- AMENDED C3 (theorem).  What the builder actually computes: each model's
`dependsOn` is the list of its foreign entities' *entity names*, in
declaration order, with duplicates kept and with entities missing from the
primary/unique index included as well (their `file`/`semanticModelName`
markers are `none`); the owning-model name recorded on a resolved
foreign-entity record is not used for `dependsOn`. -/
theorem buildDependencyGraph_dependsOn_foreign_names
    (models : List ModelInfo)
    (index : List (String × String × String)) (fileName : String)
    (sm : SemanticModelSrc) :
    (buildDependencyGraph models).map (fun r => (r.1, r.2.1)) =
      models.map (fun mi => (mi.name, mi.foreignEntities.map ForeignEntityDef.name)) ∧
    (parseModelInfo index fileName sm).foreignEntities.map ForeignEntityDef.name =
      (sm.entities.filter (fun e => e.type = "foreign")).map Entity.name := by
  constructor
  · rw [buildDependencyGraph]
    have hpres := foldl_preserves (fun recs => recs.map (fun r => (r.1, r.2.1)))
      (fun acc (entry : DepRecord) =>
        entry.2.1.foldl
          (fun acc2 dependency =>
            if acc2.any (fun r => r.1 = dependency) then
              pushDependent acc2 dependency entry.1
            else acc2)
          acc)
      (fun a b => by
        exact foldl_preserves (fun recs => recs.map (fun r => (r.1, r.2.1)))
          (fun acc2 dependency =>
            if acc2.any (fun r => r.1 = dependency) then
              pushDependent acc2 dependency b.1
            else acc2)
          (fun a2 d => by
            by_cases h : a2.any (fun r => r.1 = d)
            · simp only [h, ite_true, if_pos]
              exact pushDependent_preserves a2 d b.1
            · simp [h])
          b.2.1 a)
    refine (hpres _ _).trans ?_
    simp only [List.map_map]
    rfl
  · rw [parseModelInfo, processEntity_foreign index]
    simp [List.map_map]

end SemanticModelAnalyzer

/-! ## Shared string-scanning primitives

The expression translator works on JavaScript strings by position.  The
embedding uses `List Char` with explicit indices; `jsSubstring` mirrors
`String.prototype.substring` (clamping, and swapping the bounds when
`start > end`). -/

/-- JavaScript `str.substring(a, b)`. -/
def jsSubstring (cs : List Char) (a b : Nat) : List Char :=
  (cs.take (max a b)).drop (min a b)

/-- JavaScript word character (`\w` = `[A-Za-z0-9_]`). -/
def isWordChar (c : Char) : Bool :=
  (c.isUpper || c.isLower) || c.isDigit || c = '_'

/-- Does `pat` occur at the head of `s`? -/
def patMatch : List Char → List Char → Bool
  | [], _ => true
  | _ :: _, [] => false
  | p :: ps, c :: cs => p = c && patMatch ps cs

/-- All positions (ascending) at which `pat` occurs in `hay`. -/
def matchPositionsAux : List Char → List Char → Nat → List Nat
  | [], pat, i => if pat = [] then [i] else []
  | c :: rest, pat, i =>
      (if patMatch pat (c :: rest) then [i] else []) ++
        matchPositionsAux rest pat (i + 1)

def matchPositions (hay pat : List Char) : List Nat :=
  matchPositionsAux hay pat 0

/-- JavaScript `hay.indexOf(pat, start)` (`none` for `-1`). -/
def indexOfFrom (hay pat : List Char) (start : Nat) : Option Nat :=
  (matchPositions hay pat).find? (fun i => start ≤ i)

/-- JavaScript `hay.lastIndexOf(pat)` (`none` for `-1`). -/
def lastIndexOfStr (hay pat : List Char) : Option Nat :=
  (matchPositions hay pat).getLast?

def toLowerList (cs : List Char) : List Char := cs.map Char.toLower

/-- Collapse every whitespace run to a single space
(JS `replace(/\s+/g, ' ')`).  `skipMode` is set while inside a whitespace
run whose single replacement space was already emitted. -/
def collapseWsAux : Bool → List Char → List Char
  | _, [] => []
  | skipMode, c :: rest =>
      if c.isWhitespace then
        if skipMode then collapseWsAux true rest
        else ' ' :: collapseWsAux true rest
      else c :: collapseWsAux false rest

def collapseWs (cs : List Char) : List Char := collapseWsAux false cs

def trimChars (cs : List Char) : List Char :=
  ((cs.dropWhile Char.isWhitespace).reverse.dropWhile Char.isWhitespace).reverse

/-- JS `expr.replace(/\s+/g, ' ').trim()`. -/
def normalizeWs (cs : List Char) : List Char :=
  trimChars (collapseWs cs)

/-! ## findMatchingClosingParen (dimensions/utils/findMatchingClosingParen.js) -/

/-- The scanning loop of `findMatchingClosingParen`: `depth` counts nested
parentheses; a closing parenthesis at depth 0 is the answer.  (There is no
quote handling in the source.) -/
def findParenAux : List Char → Nat → Nat → Option Nat
  | [], _, _ => none
  | c :: rest, i, depth =>
      if c = '(' then findParenAux rest (i + 1) (depth + 1)
      else if c = ')' then
        if depth = 0 then some i
        else findParenAux rest (i + 1) (depth - 1)
      else findParenAux rest (i + 1) depth

/-- `findMatchingClosingParen(expr, startPos)`; `none` models `-1`. -/
def findMatchingClosingParen (expr : List Char) (startPos : Nat) : Option Nat :=
  findParenAux (expr.drop startPos) startPos 0

/-- Modelled from the spec (§4.3, quote-aware closing-delimiter scan): like
the depth scan, but a quote character toggles an inside-literal flag and
both parenthesis characters are ignored while the flag is set.  This is the
behaviour the claim attributes to the code's scan. -/
def specQuoteAwareScanAux : List Char → Nat → Nat → Bool → Option Nat
  | [], _, _, _ => none
  | c :: rest, i, depth, inLiteral =>
      if c = '\'' || c = '"' then
        specQuoteAwareScanAux rest (i + 1) depth (!inLiteral)
      else if inLiteral then specQuoteAwareScanAux rest (i + 1) depth inLiteral
      else if c = '(' then specQuoteAwareScanAux rest (i + 1) (depth + 1) inLiteral
      else if c = ')' then
        if depth = 0 then some i
        else specQuoteAwareScanAux rest (i + 1) (depth - 1) inLiteral
      else specQuoteAwareScanAux rest (i + 1) depth inLiteral

def specQuoteAwareScan (expr : List Char) (startPos : Nat) : Option Nat :=
  specQuoteAwareScanAux (expr.drop startPos) startPos 0 false

/-- COUNTEREXAMPLE to C5.  On `(')')` scanning from position 1 the source
returns position 2 — the quoted closing parenthesis inside the string
literal — because it has no inside-literal flag at all, while the
quote-aware scan described by the claim returns the true closer at
position 4. -/
theorem findMatchingClosingParen_not_quote_aware :
    findMatchingClosingParen ['(', '\'', ')', '\'', ')'] 1 = some 2 ∧
    specQuoteAwareScan ['(', '\'', ')', '\'', ')'] 1 = some 4 ∧
    findMatchingClosingParen ['(', '\'', ')', '\'', ')'] 1 ≠
      specQuoteAwareScan ['(', '\'', ')', '\'', ')'] 1 := by
  refine ⟨by decide, by decide, by decide⟩

def opensCount (cs : List Char) : Nat := cs.countP (fun c => c = '(')
def closesCount (cs : List Char) : Nat := cs.countP (fun c => c = ')')

lemma closesCount_cons (c : Char) (cs : List Char) :
    closesCount (c :: cs) = closesCount cs + (if c = ')' then 1 else 0) := by
  simp [closesCount, List.countP_cons]

lemma opensCount_cons (c : Char) (cs : List Char) :
    opensCount (c :: cs) = opensCount cs + (if c = '(' then 1 else 0) := by
  simp [opensCount, List.countP_cons]

lemma findParenAux_spec :
    ∀ (cs : List Char) (i depth res : Nat),
      findParenAux cs i depth = some res →
      ∃ k, k < cs.length ∧ res = i + k ∧ cs.get? k = some ')' ∧
        closesCount (cs.take k) = opensCount (cs.take k) + depth ∧
        ∀ j, j < k → cs.get? j = some ')' →
          closesCount (cs.take j) ≠ opensCount (cs.take j) + depth := by
  intro cs
  induction cs with
  | nil => intro i depth res h; simp [findParenAux] at h
  | cons c rest ih =>
      intro i depth res h
      rw [findParenAux] at h
      by_cases hop : c = '('
      · rw [if_pos hop] at h
        obtain ⟨k, hk, hres, hget, hcount, hfirst⟩ := ih (i + 1) (depth + 1) res h
        have hcne : ¬ (c = ')') := by rw [hop]; decide
        refine ⟨k + 1, by simpa using Nat.succ_lt_succ hk, by omega,
          by simpa using hget, ?_, ?_⟩
        · rw [List.take_succ_cons, closesCount_cons, opensCount_cons,
            if_neg hcne, if_pos hop]
          omega
        · intro j hj hgj
          cases j with
          | zero =>
              simp only [List.get?_cons_zero, Option.some.injEq] at hgj
              exact absurd hgj hcne
          | succ j =>
              have := hfirst j (Nat.lt_of_succ_lt_succ hj) (by simpa using hgj)
              rw [List.take_succ_cons, closesCount_cons, opensCount_cons,
                if_neg hcne, if_pos hop]
              omega
      · rw [if_neg hop] at h
        by_cases hcl : c = ')'
        · rw [if_pos hcl] at h
          by_cases hd : depth = 0
          · rw [if_pos hd] at h
            have hres : res = i := by
              have := h
              simp only [Option.some.injEq] at this
              omega
            refine ⟨0, by simp, by omega, by simp [hcl],
              by simp [closesCount, opensCount, hd], by intro j hj; omega⟩
          · rw [if_neg hd] at h
            obtain ⟨k, hk, hres, hget, hcount, hfirst⟩ := ih (i + 1) (depth - 1) res h
            refine ⟨k + 1, by simpa using Nat.succ_lt_succ hk, by omega,
              by simpa using hget, ?_, ?_⟩
            · rw [List.take_succ_cons, closesCount_cons, opensCount_cons,
                if_pos hcl, if_neg hop]
              omega
            · intro j hj hgj
              cases j with
              | zero =>
                  intro hcon
                  simp only [List.take_zero, closesCount, opensCount,
                    List.countP_nil] at hcon
                  omega
              | succ j =>
                  have := hfirst j (Nat.lt_of_succ_lt_succ hj) (by simpa using hgj)
                  rw [List.take_succ_cons, closesCount_cons, opensCount_cons,
                    if_pos hcl, if_neg hop]
                  omega
        · rw [if_neg hcl] at h
          obtain ⟨k, hk, hres, hget, hcount, hfirst⟩ := ih (i + 1) depth res h
          refine ⟨k + 1, by simpa using Nat.succ_lt_succ hk, by omega,
            by simpa using hget, ?_, ?_⟩
          · rw [List.take_succ_cons, closesCount_cons, opensCount_cons,
              if_neg hcl, if_neg hop]
            omega
          · intro j hj hgj
            cases j with
            | zero =>
                simp only [List.get?_cons_zero, Option.some.injEq] at hgj
                exact absurd hgj hcl
            | succ j =>
                have := hfirst j (Nat.lt_of_succ_lt_succ hj) (by simpa using hgj)
                rw [List.take_succ_cons, closesCount_cons, opensCount_cons,
                  if_neg hcl, if_neg hop]
                omega

/-- AMENDED C5 (theorem).  What the scan actually guarantees: the returned
position is the first closing parenthesis (counting from `startPos`) at
which the numbers of opening and closing parentheses seen so far balance —
so closing parentheses of deeper-nested calls are skipped — but the scan is
*not* quote-aware: parenthesis characters inside quoted literals count just
like any others. -/
theorem findMatchingClosingParen_first_balanced_close
    (expr : List Char) (startPos res : Nat)
    (h : findMatchingClosingParen expr startPos = some res) :
    ∃ k, k < (expr.drop startPos).length ∧ res = startPos + k ∧
      (expr.drop startPos).get? k = some ')' ∧
      closesCount ((expr.drop startPos).take k) =
        opensCount ((expr.drop startPos).take k) ∧
      ∀ j, j < k → (expr.drop startPos).get? j = some ')' →
        closesCount ((expr.drop startPos).take j) ≠
          opensCount ((expr.drop startPos).take j) := by
  obtain ⟨k, hk, hres, hget, hcount, hfirst⟩ :=
    findParenAux_spec (expr.drop startPos) startPos 0 res h
  exact ⟨k, hk, hres, hget, by omega, fun j hj hgj => by
    have := hfirst j hj hgj
    omega⟩

/-- Witness for the amended C5 at the nested input `(a,(b)),x`, scanning
from position 1: the scan skips the inner call's closing parenthesis and
returns position 6. -/
theorem findMatchingClosingParen_first_balanced_close_witness :
    findMatchingClosingParen ['(', 'a', ',', '(', 'b', ')', ')', ',', 'x'] 1 =
      some 6 ∧
    ∃ k, k < ((['(', 'a', ',', '(', 'b', ')', ')', ',', 'x'] : List Char).drop 1).length ∧
      6 = 1 + k ∧
      ((['(', 'a', ',', '(', 'b', ')', ')', ',', 'x'] : List Char).drop 1).get? k =
        some ')' ∧
      closesCount (((['(', 'a', ',', '(', 'b', ')', ')', ',', 'x'] : List Char).drop 1).take k) =
        opensCount (((['(', 'a', ',', '(', 'b', ')', ')', ',', 'x'] : List Char).drop 1).take k) ∧
      ∀ j, j < k →
        ((['(', 'a', ',', '(', 'b', ')', ')', ',', 'x'] : List Char).drop 1).get? j =
          some ')' →
        closesCount (((['(', 'a', ',', '(', 'b', ')', ')', ',', 'x'] : List Char).drop 1).take j) ≠
          opensCount (((['(', 'a', ',', '(', 'b', ')', ')', ',', 'x'] : List Char).drop 1).take j) :=
  ⟨by decide,
    findMatchingClosingParen_first_balanced_close
      ['(', 'a', ',', '(', 'b', ')', ')', ',', 'x'] 1 6 (by decide)⟩

/-! ## Column-reference rewriting (dimensions/utils/convertColumnReferences.js)

The display-name flag `USER_FRIENDLY_COLUMN_NAMES` is unset by default;
the embedding fixes the configuration to `false` (names kept verbatim). -/

/-- The `USER_FRIENDLY_COLUMN_NAMES` environment flag (default: unset). -/
def userFriendlyColumnNameFlag : Bool := false

/-- JS `convertToUserFriendlyName(name)`
(src/sigma_converter/src/main.js, `convertToUserFriendlyName` module
segment): underscores replaced by spaces throughout (`name.replace(/_/g,
' ')`; the falsy guard returns the argument unchanged, which coincides with
the replacement on the empty string). -/
def convertToUserFriendlyName (cs : List Char) : List Char :=
  cs.map (fun c => if c = '_' then ' ' else c)

/-- The `sigmaFunctions` keyword set of `convertColumnReferences`
(lines 50–63), verbatim. -/
def sigmaFunctions : List String :=
  ["splitpart",
   "SUBSTRING", "substring", "SUBSTR", "substr",
   "CONCAT", "concat", "CONCAT_WS", "concat_ws",
   "UPPER", "upper", "LOWER", "lower",
   "TRIM", "trim", "LTRIM", "ltrim", "RTRIM", "rtrim",
   "COALESCE", "coalesce", "NULLIF", "nullif",
   "CASE", "case", "WHEN", "when", "THEN", "then", "ELSE", "else", "END", "end",
   "IF", "if", "AND", "and", "OR", "or", "NOT", "not",
   "IS", "is", "NULL", "null",
   "DATE_TRUNC", "date_trunc", "DATE_PART", "date_part",
   "EXTRACT", "extract", "TO_DATE", "to_date", "TO_TIMESTAMP", "to_timestamp",
   "CAST", "cast", "::"]

/-- The matches of `/\b([a-zA-Z_][a-zA-Z0-9_]*)\b/g`: maximal word-character
runs whose first character is a letter or underscore, with their start
positions (runs starting with a digit have no word boundary before their
first letter, so they produce no match). -/
def tokensAux : List Char → Nat → Option (Nat × List Char × Bool) →
    List (Nat × List Char)
  | [], _, cur =>
      (match cur with
       | some (s, acc, true) => [(s, acc.reverse)]
       | _ => [])
  | c :: rest, i, cur =>
      if isWordChar c then
        match cur with
        | some (s, acc, flag) => tokensAux rest (i + 1) (some (s, c :: acc, flag))
        | none =>
            tokensAux rest (i + 1)
              (some (i, [c], (c.isUpper || c.isLower) || c = '_'))
      else
        (match cur with
         | some (s, acc, true) => [(s, acc.reverse)]
         | _ => []) ++ tokensAux rest (i + 1) none

/-- All identifier matches of the scan, with start positions. -/
def identifierTokens (cs : List Char) : List (Nat × List Char) :=
  tokensAux cs 0 none

/-- Steps 4a–4d of `convertColumnReferences`: for every identifier match,
skip keywords, identifiers under an odd number of preceding quotes, and
identifiers with some `[` before and some `]` after; otherwise record a
replacement by the bracketed (optionally display-name-transformed) name. -/
def collectReplacements (cs : List Char) : List (Nat × Nat × List Char) :=
  (identifierTokens cs).filterMap (fun t =>
    let startPos := t.1
    let run := t.2
    let endPos := startPos + run.length
    if sigmaFunctions.contains (String.mk (toLowerList run)) then none
    else
      let before := cs.take startPos
      if (before.countP (fun c => c = '\'')) % 2 = 1 ||
          (before.countP (fun c => c = '"')) % 2 = 1 then none
      else if before.contains '[' && (cs.drop endPos).contains ']' then none
      else
        let userFriendlyName :=
          if userFriendlyColumnNameFlag then convertToUserFriendlyName run else run
        some (startPos, endPos, '[' :: (userFriendlyName ++ [']'])))

/-- Step 5: apply the recorded replacements from right to left
(`replacements.sort((a, b) => b.start - a.start)`; the collected list is in
ascending match order, so the sorted order is its reverse). -/
def applyReplacements (cs : List Char) (reps : List (Nat × Nat × List Char)) :
    List Char :=
  reps.reverse.foldl
    (fun acc r => acc.take r.1 ++ r.2.2 ++ acc.drop r.2.1) cs

/-- `convertColumnReferences(expr)`. -/
def convertColumnReferences (expr : List Char) : List Char :=
  let converted := normalizeWs expr
  applyReplacements converted (collectReplacements converted)

/-! ## parseFunctionArguments (dimensions/utils/parseFunctionArguments.js) -/

def parseArgsAux : List Char → List (List Char) → List Char → Bool →
    Option Char → Int → List (List Char)
  | [], args, currentArg, _, _, _ =>
      if trimChars currentArg ≠ [] then args ++ [trimChars currentArg] else args
  | ch :: rest, args, currentArg, inString, stringChar, parenDepth =>
      if !inString && (ch = '"' || ch = '\'') then
        parseArgsAux rest args (currentArg ++ [ch]) true (some ch) parenDepth
      else if inString && some ch = stringChar then
        parseArgsAux rest args (currentArg ++ [ch]) false none parenDepth
      else if !inString && ch = '(' then
        parseArgsAux rest args (currentArg ++ [ch]) inString stringChar (parenDepth + 1)
      else if !inString && ch = ')' then
        parseArgsAux rest args (currentArg ++ [ch]) inString stringChar (parenDepth - 1)
      else if !inString && parenDepth = 0 && ch = ',' then
        parseArgsAux rest (args ++ [trimChars currentArg]) [] inString stringChar parenDepth
      else
        parseArgsAux rest args (currentArg ++ [ch]) inString stringChar parenDepth

/-- `parseFunctionArguments(argsStr)`: top-level comma split that is
quote-aware and paren-depth-aware. -/
def parseFunctionArguments (argsStr : List Char) : List (List Char) :=
  parseArgsAux argsStr [] [] false none 0

/-! ## convertCase (dimensions/utils/convertCase.js)

A JS value that is either a string or `null` is embedded as `Option (List
Char)`; the recursive converter parameter `g` returns `Option (Option (List
Char))`, where the outer `none` marks a recursion that did not complete
within the fuel (divergence) and propagates outward. -/

abbrev JsStr := List Char
abbrev JsVal := Option JsStr

/-- Case-insensitive `\bword\b` test (`expr.match(/\bcase\b/i)`). -/
def hasWordCI (cs : List Char) (w : List Char) : Bool :=
  (List.range (cs.length + 1)).any (fun i =>
    patMatch w ((cs.drop i).map Char.toLower) &&
    (match i with
     | 0 => true
     | Nat.succ j =>
        match cs.get? j with
        | some c => !isWordChar c
        | none => true) &&
    (match cs.get? (i + w.length) with
     | some c => !isWordChar c
     | none => true))

/-- Step 8c of `convertCase`: scan forward from `start` for the first
`then` at parenthesis depth 0 outside string literals.  `body` is already
lowercased. -/
def findThenAux : List Char → Nat → Int → Bool → Option Char → Option Nat
  | [], _, _, _, _ => none
  | c :: rest, i, depth, inString, stringChar =>
      if !inString && (c = '"' || c = '\'') then
        findThenAux rest (i + 1) depth true (some c)
      else if inString && some c = stringChar then
        findThenAux rest (i + 1) depth false none
      else if !inString then
        if c = '(' then findThenAux rest (i + 1) (depth + 1) inString stringChar
        else if c = ')' then findThenAux rest (i + 1) (depth - 1) inString stringChar
        else if depth = 0 && patMatch ['t', 'h', 'e', 'n'] (c :: rest) then some i
        else findThenAux rest (i + 1) depth inString stringChar
      else findThenAux rest (i + 1) depth inString stringChar

def findThenIdx (body : List Char) (start : Nat) : Option Nat :=
  findThenAux (body.drop start) start 0 false none

/-- Steps 8–8k of `convertCase`: the WHEN/THEN/ELSE parsing loop.  `pos`
strictly increases in every iteration (the next boundary lies at or after
`thenIndex + 4 > pos`), so `body.length + 1` units of fuel always suffice;
the fuel-exhaustion branch is unreachable for the initial fuel and merely
mirrors loop exit. -/
def caseLoop (g : JsStr → Option JsVal) (caseBody body : JsStr) :
    Nat → Nat → List JsVal → List JsVal → Option JsVal →
    Option (List JsVal × List JsVal × Option JsVal)
  | 0, _, conds, results, elseR => some (conds, results, elseR)
  | fuel + 1, pos, conds, results, elseR =>
      if pos < body.length then
        match indexOfFrom body ['w', 'h', 'e', 'n'] pos with
        | none => some (conds, results, elseR)
        | some whenIndex =>
          match findThenIdx body (whenIndex + 4) with
          | none => some (conds, results, elseR)
          | some thenIndex =>
            let conditionStr := trimChars (jsSubstring caseBody (whenIndex + 4) thenIndex)
            match g conditionStr with
            | none => none
            | some condition =>
              let nextWhenIndex := indexOfFrom body ['w', 'h', 'e', 'n'] (thenIndex + 4)
              let elseIndex := indexOfFrom body ['e', 'l', 's', 'e'] (thenIndex + 4)
              let caseEndIndex := indexOfFrom body ['e', 'n', 'd'] (thenIndex + 4)
              let nextBoundary :=
                min (min (nextWhenIndex.getD body.length) (elseIndex.getD body.length))
                  (caseEndIndex.getD body.length)
              let resultStr := trimChars (jsSubstring caseBody (thenIndex + 4) nextBoundary)
              match g resultStr with
              | none => none
              | some result =>
                match elseIndex with
                | some ei =>
                    if ei = nextBoundary then
                      let elseStr := trimChars (caseBody.drop (ei + 4))
                      match g elseStr with
                      | none => none
                      | some er =>
                          some (conds ++ [condition], results ++ [result], some er)
                    else
                      caseLoop g caseBody body fuel nextBoundary
                        (conds ++ [condition]) (results ++ [result]) elseR
                | none =>
                    caseLoop g caseBody body fuel nextBoundary
                      (conds ++ [condition]) (results ++ [result]) elseR
      else some (conds, results, elseR)

/-- `Array.prototype.join(',')` over JS values (a `null` entry renders as
the empty string). -/
def joinComma : List JsVal → List Char
  | [] => []
  | [x] => x.getD []
  | x :: rest => x.getD [] ++ ',' :: joinComma rest

/-- `ifArgs`: conditions and results interleaved (step 10). -/
def interleaveArgs : List JsVal → List JsVal → List JsVal
  | [], _ => []
  | _, [] => []
  | c :: cs, r :: rs => c :: r :: interleaveArgs cs rs

/-- `convertCase(expr, convertExpressionToSigma)`.  Returns `some none` for
the JS `null` ("no conversion"), `some (some s)` for a converted string and
`none` when a recursive translation ran out of fuel. -/
def convertCase (g : JsStr → Option JsVal) (expr : JsStr) : Option JsVal :=
  if !hasWordCI expr ['c', 'a', 's', 'e'] then some none
  else
    let normalized := normalizeWs expr
    let lower := toLowerList normalized
    match lastIndexOfStr lower ['e', 'n', 'd'] with
    | none => some none
    | some endIndex =>
      match indexOfFrom lower ['c', 'a', 's', 'e'] 0 with
      | none => some none
      | some caseIndex =>
        let caseBody := trimChars (jsSubstring normalized (caseIndex + 4) endIndex)
        let body := toLowerList caseBody
        match caseLoop g caseBody body (body.length + 1) 0 [] [] none with
        | none => none
        | some (conds, results, elseR) =>
          if conds = [] then some none
          else
            let ifArgs := interleaveArgs conds results ++
              (match elseR with
               | some (some s) => if s = [] then [] else [some s]
               | _ => [])
            let result := "if(".toList ++ joinComma ifArgs ++ [')']
            some (some (jsSubstring normalized 0 caseIndex ++ result ++
              normalized.drop (endIndex + 3)))

/-! ## convertSplitPart (dimensions/utils/convertSplitPart.js) -/

/-- The scan of `/pat\s*\(/i`: find the first position where `pat` matches
case-insensitively, followed by optional whitespace and `(`; returns the
match position and the match length (including the parenthesis). -/
def anchorScanAux (pat : List Char) : List Char → Nat → Option (Nat × Nat)
  | [], _ => none
  | c :: rest, i =>
      if patMatch pat ((c :: rest).map Char.toLower) then
        let after := (c :: rest).drop pat.length
        let wsLen := (after.takeWhile Char.isWhitespace).length
        if (after.drop wsLen).head? = some '(' then
          some (i, pat.length + wsLen + 1)
        else anchorScanAux pat rest (i + 1)
      else anchorScanAux pat rest (i + 1)

def joinCommaPlain : List JsStr → List Char
  | [] => []
  | [x] => x
  | x :: rest => x ++ ',' :: joinCommaPlain rest

/-- `convertSplitPart(expr, convertExpressionToSigma)`: anchor on
`/split_part\s*\(/i`, find the matching closing parenthesis, split the
arguments; fewer than 3 arguments is rejected (`null`); the first argument
is column-reference-rewritten and retranslated, all remaining arguments are
kept as-is. -/
def convertSplitPart (g : JsStr → Option JsVal) (expr : JsStr) : Option JsVal :=
  match anchorScanAux "split_part".toList expr 0 with
  | none => some none
  | some (matchIndex, matchLen) =>
    let startPos := matchIndex + matchLen
    match findMatchingClosingParen expr startPos with
    | none => some none
    | some endPos =>
      let argsStr := jsSubstring expr startPos endPos
      let args := parseFunctionArguments argsStr
      if args.length < 3 then some none
      else
        match g (convertColumnReferences (trimChars (args.headD []))) with
        | none => none
        | some fv =>
          let firstArg := fv.getD "null".toList
          let otherArgs := (args.drop 1).map trimChars
          let result := "splitpart(".toList ++ firstArg ++ ',' ::
            joinCommaPlain otherArgs ++ [')']
          some (some (expr.take matchIndex ++ result ++ expr.drop (endPos + 1)))

/-- The quoted-literal check of `convertConcat`: `(arg.startsWith("'") &&
arg.endsWith("'")) || (arg.startsWith('"') && arg.endsWith('"'))` — the
first and the last character are the same quote character (a single quote
character satisfies both `startsWith` and `endsWith`; mixed quotes fail). -/
def isQuotedLiteral (cs : JsStr) : Bool :=
  match cs.head?, cs.getLast? with
  | some c1, some c2 => (c1 = '\'' && c2 = '\'') || (c1 = '"' && c2 = '"')
  | _, _ => false

/-- The `args.map(...)` of JS `convertConcat(expr, convertExpressionToSigma)`
(src/sigma_converter/src/main.js, `convertConcat` module segment, required
by build_sigma_formula.js as `../utils/convertConcat`): each argument is
trimmed; a quoted literal is kept as-is; any other argument is
column-reference-rewritten and then retranslated.  The outer `none`
propagates a retranslation that did not complete; in the joined result
`Array.prototype.join` renders a `null` conversion as the empty string. -/
def convertConcatArgs (g : JsStr → Option JsVal) : List JsStr → Option (List JsStr)
  | [] => some []
  | a :: rest =>
      let arg := trimChars a
      match (if isQuotedLiteral arg then some (some arg)
             else g (convertColumnReferences arg)) with
      | none => none
      | some v =>
        match convertConcatArgs g rest with
        | none => none
        | some vs => some (v.getD [] :: vs)

/-- `convertedArgs.join(' & ')`. -/
def joinAmp : List JsStr → List Char
  | [] => []
  | [x] => x
  | x :: rest => x ++ ' ' :: '&' :: ' ' :: joinAmp rest

/-- JS `convertConcat(expr, convertExpressionToSigma)`
(src/sigma_converter/src/main.js, `convertConcat` module segment): anchor on
`/concat\s*\(/i`, find the matching closing parenthesis (`null` when there
is none), split the interior into top-level arguments, convert each (see
`convertConcatArgs`), join with ` & ` and splice the join over the original
call — an empty argument list splices the empty join (the call is deleted,
not rejected). -/
def convertConcat (g : JsStr → Option JsVal) (expr : JsStr) : Option JsVal :=
  match anchorScanAux "concat".toList expr 0 with
  | none => some none
  | some (matchIndex, matchLen) =>
    let startPos := matchIndex + matchLen
    match findMatchingClosingParen expr startPos with
    | none => some none
    | some endPos =>
      let args := parseFunctionArguments (jsSubstring expr startPos endPos)
      match convertConcatArgs g args with
      | none => none
      | some vs =>
        some (some (expr.take matchIndex ++ joinAmp vs ++ expr.drop (endPos + 1)))

/-! ## convertExpressionToSigma (dimensions/formula/build_sigma_formula.js) -/

/-- One JS value is "truthy and different from the current string". -/
def changedResult (r : JsVal) (converted : JsStr) : Bool :=
  match r with
  | some s => !s.isEmpty && decide (s ≠ converted)
  | none => false

/-- The `while (changed && iterations < maxIterations)` loop of
`convertExpressionToSigma`; `fuel` is the number of remaining iterations
(10 at entry).  In each iteration the conversions are attempted in the
order CASE, CONCAT, SPLIT_PART; the first one that returns a truthy result
different from the current string restarts the loop; if none does, the
loop exits. -/
def translateLoop (g : JsStr → Option JsVal) : Nat → JsStr → Option JsStr
  | 0, converted => some converted
  | fuel + 1, converted =>
      match convertCase g converted with
      | none => none
      | some caseResult =>
        if changedResult caseResult converted then
          translateLoop g fuel (caseResult.getD [])
        else
          match convertConcat g converted with
          | none => none
          | some concatResult =>
            if changedResult concatResult converted then
              translateLoop g fuel (concatResult.getD [])
            else
              match convertSplitPart g converted with
              | none => none
              | some splitPartResult =>
                if changedResult splitPartResult converted then
                  translateLoop g fuel (splitPartResult.getD [])
                else some converted

/-- `convertExpressionToSigma(expr)`, indexed by recursion fuel: `none`
models a nested recursion that did not complete (the JS function recurses
through the construct converters with no guard); `some none` is the JS
`null` returned for a falsy argument; `some (some s)` is a translated
string.  `maxIterations = 10`. -/
def convertExpressionToSigma : Nat → JsStr → Option JsVal
  | 0, _ => none
  | fuel + 1, expr =>
      if expr.isEmpty then some none
      else
        match translateLoop (convertExpressionToSigma fuel) 10 (normalizeWs expr) with
        | none => none
        | some converted => some (some (convertColumnReferences converted))

/-! ### Idempotence of expression translation (C4)

The translation loop performs at most `maxIterations = 10` construct
conversions per call; a `split_part` call nested 11 levels deep (in the
second argument, which the rewriter keeps as-is) leaves the innermost call
unconverted.  An unmatched leading quote puts every later identifier at odd
quote parity, so the final column-reference pass leaves the leftover
`split_part(` anchor intact — and the next translation call converts it,
changing the string. -/

def nestedSplitPart : Nat → JsStr
  | 0 => "split_part(a,b,c)".toList
  | n + 1 => "split_part(x,".toList ++ nestedSplitPart n ++ ",y)".toList

/-- The counterexample input: an unmatched quote followed by an 11-deep
`split_part` nest. -/
def idemInput : JsStr := '\'' :: nestedSplitPart 10

def convertedNest1 : Nat → JsStr
  | 0 => "split_part(a,b,c)".toList
  | n + 1 => "splitpart([x],".toList ++ convertedNest1 n ++ ",y)".toList

/-- First translation: ten outer calls converted, the innermost left. -/
def idemT1 : JsStr := '\'' :: convertedNest1 10

def convertedNest2 : Nat → JsStr
  | 0 => "splitpart([a],b,c)".toList
  | n + 1 => "splitpart([x],".toList ++ convertedNest2 n ++ ",y)".toList

/-- Second translation: the leftover innermost call is converted as well. -/
def idemT2 : JsStr := '\'' :: convertedNest2 10

set_option maxRecDepth 400000 in
set_option maxHeartbeats 4000000 in
/-- COUNTEREXAMPLE to C4.  Expression translation is not idempotent:
translating `idemInput` (which completes, producing `idemT1`) and then
translating the output again produces the different string `idemT2`, because
the 10-iteration ceiling left an unconverted `split_part` whose anchor
survives the bracketing pass behind the unmatched quote. -/
theorem convertExpressionToSigma_not_idempotent :
    ¬ (∀ (fuel : Nat) (x t : JsStr),
        convertExpressionToSigma fuel x = some (some t) →
        convertExpressionToSigma fuel t = some (some t)) := by
  intro hid
  have h1 : convertExpressionToSigma 20 idemInput = some (some idemT1) := by decide
  have h2 : convertExpressionToSigma 20 idemT1 = some (some idemT2) := by decide
  have h3 : idemT1 ≠ idemT2 := by decide
  have hfix := hid 20 idemInput idemT1 h1
  rw [hfix] at h2
  simp only [Option.some.injEq] at h2
  exact h3 h2

set_option maxRecDepth 400000 in
set_option maxHeartbeats 4000000 in
/-- AMENDED C4 (theorem).  Translation is not idempotent for every input
(see the counterexample); re-translating the translator's output does yield
the same string for the specification's own example expressions
(conditional, substring extraction, concatenation, bare column
references), each of which is fully converted in one translation call. -/
theorem convertExpressionToSigma_idempotent_on_spec_examples :
    (convertExpressionToSigma 20 "CASE WHEN a=1 THEN x WHEN b=2 THEN y ELSE z END".toList
        = some (some "if([a]=1,[x],[b]=2,[y],[z])".toList) ∧
      convertExpressionToSigma 20 "if([a]=1,[x],[b]=2,[y],[z])".toList
        = some (some "if([a]=1,[x],[b]=2,[y],[z])".toList)) ∧
    (convertExpressionToSigma 20 "SPLIT_PART(email, '@', 2)".toList
        = some (some "splitpart([email],'@',2)".toList) ∧
      convertExpressionToSigma 20 "splitpart([email],'@',2)".toList
        = some (some "splitpart([email],'@',2)".toList)) ∧
    (convertExpressionToSigma 20 "CONCAT(col1, ' - ', col2)".toList
        = some (some "[col1] & ' - ' & [col2]".toList) ∧
      convertExpressionToSigma 20 "[col1] & ' - ' & [col2]".toList
        = some (some "[col1] & ' - ' & [col2]".toList)) ∧
    (convertExpressionToSigma 20 "col1 + col2".toList
        = some (some "[col1] + [col2]".toList) ∧
      convertExpressionToSigma 20 "[col1] + [col2]".toList
        = some (some "[col1] + [col2]".toList)) := by
  exact ⟨⟨by decide, by decide⟩, ⟨by decide, by decide⟩,
    ⟨by decide, by decide⟩, ⟨by decide, by decide⟩⟩

/-! ### SPLIT_PART arity (C6) -/

set_option maxRecDepth 400000 in
set_option maxHeartbeats 1000000 in
/-- COUNTEREXAMPLE to C6.  A `SPLIT_PART` call with four top-level
arguments is *not* rejected: the source only checks `args.length < 3`, so
the call converts, keeping the extra argument — contradicting the claim
that any argument count other than exactly 3 yields `null`. -/
theorem convertSplitPart_four_args_converts :
    convertSplitPart (convertExpressionToSigma 20)
        "SPLIT_PART(email, '@', 2, 3)".toList =
      some (some "splitpart([email],'@',2,3)".toList) ∧
    (some (some "splitpart([email],'@',2,3)".toList) : Option JsVal) ≠ some none := by
  exact ⟨by decide, by decide⟩

/-- AMENDED C6 (theorem).  `convertSplitPart` converts
`SPLIT_PART(value, delim, n)` to `splitpart(value,delim,n)` whenever the
call has *at least* 3 top-level arguments (all further arguments are kept
verbatim), and rejects the construct (returns `null`) only when it has
fewer than 3 arguments. -/
theorem convertSplitPart_arity (g : JsStr → Option JsVal) (expr : JsStr)
    (mi ml endPos : Nat)
    (hanchor : anchorScanAux "split_part".toList expr 0 = some (mi, ml))
    (hparen : findMatchingClosingParen expr (mi + ml) = some endPos) :
    ((parseFunctionArguments (jsSubstring expr (mi + ml) endPos)).length < 3 →
        convertSplitPart g expr = some none) ∧
    (∀ fv, 3 ≤ (parseFunctionArguments (jsSubstring expr (mi + ml) endPos)).length →
        g (convertColumnReferences (trimChars
          ((parseFunctionArguments (jsSubstring expr (mi + ml) endPos)).headD []))) =
            some fv →
        convertSplitPart g expr =
          some (some (expr.take mi ++
            ("splitpart(".toList ++ fv.getD "null".toList ++ ',' ::
              joinCommaPlain
                (((parseFunctionArguments (jsSubstring expr (mi + ml) endPos)).drop 1).map
                  trimChars) ++ [')']) ++
            expr.drop (endPos + 1)))) := by
  constructor
  · intro hlt
    rw [convertSplitPart, hanchor]
    simp only
    rw [hparen]
    simp only [if_pos hlt]
  · intro fv hge hg
    rw [convertSplitPart, hanchor]
    simp only
    rw [hparen]
    simp only [if_neg (Nat.not_lt.mpr hge)]
    rw [hg]

/-- Witness for the amended C6 at the four-argument call
`split_part(a,b,c,d)` (converted, not rejected). -/
theorem convertSplitPart_arity_witness :
    (anchorScanAux "split_part".toList "split_part(a,b,c,d)".toList 0 =
        some (0, 11) ∧
      findMatchingClosingParen "split_part(a,b,c,d)".toList 11 = some 18 ∧
      3 ≤ (parseFunctionArguments
        (jsSubstring "split_part(a,b,c,d)".toList 11 18)).length) ∧
    convertSplitPart (fun s => some (some s)) "split_part(a,b,c,d)".toList =
      some (some "splitpart([a],b,c,d)".toList) :=
  ⟨⟨by decide, by decide, by decide⟩, by
    have h := (convertSplitPart_arity (fun s => some (some s))
      "split_part(a,b,c,d)".toList 0 11 18 (by decide) (by decide)).2
      (some "[a]".toList) (by decide) (by decide)
    rw [h]
    decide⟩

/-! ## Metric resolution (routes/metrics)

JS objects with possibly-missing fields are embedded with `Option`; for
`FormulaObject.aggFunc` the distinction between a missing field
(`undefined`) and an explicit `null` matters (`convertMetricToSigma` checks
`aggFunc !== undefined`), so it is embedded as `Option (Option String)`:
`none` = absent, `some none` = `null`, `some (some a)` = a string.
`convertFilterToSigma` (routes/filter/filter_converter.js) is a pure
string-to-string translation imported by these modules; the embedding takes
it as an explicit argument `cfs`, and every theorem below holds for each
instantiation. -/

namespace Metrics

structure Measure where
  name : String
  agg : String
  expr : String
  deriving Repr, DecidableEq

structure MEntity where
  name : String
  type : String
  deriving Repr, DecidableEq

structure SemanticModel where
  name : String
  measures : List Measure
  entities : List MEntity
  deriving Repr, DecidableEq

/-- An entry of `type_params.metrics` (or `numerator`/`denominator`): a bare
string or a `{name, alias?, filter?}` object. -/
inductive TypeParamMetric where
  | str (s : String)
  | obj (name : String) (al : Option String) (filter : Option String)
  deriving Repr, DecidableEq

structure TypeParams where
  measure : Option String
  metrics : Option (List TypeParamMetric)
  expr : Option String
  numerator : Option TypeParamMetric
  denominator : Option TypeParamMetric
  deriving Repr, DecidableEq

structure Metric where
  name : String
  type : String
  type_params : Option TypeParams
  filter : Option String
  description : Option String
  label : Option String
  deriving Repr, DecidableEq

/-- `{formula, aggFunc, measureExpr, existingFilter}`. -/
structure FormulaObject where
  formula : String
  aggFunc : Option (Option String)
  measureExpr : Option String
  existingFilter : Option String
  deriving Repr, DecidableEq

structure SigmaMetric where
  id : String
  name : String
  description : String
  formula : Option String
  deriving Repr, DecidableEq

/-- The run-scoped `convertedMetrics` cache (a JS object used as a map:
assignment replaces in place, new keys append in insertion order). -/
abbrev ConvertedMetrics := List (String × FormulaObject)

def cmGet (m : ConvertedMetrics) (k : String) : Option FormulaObject :=
  (m.find? (fun p => p.1 = k)).map Prod.snd

def cmSet (m : ConvertedMetrics) (k : String) (v : FormulaObject) :
    ConvertedMetrics :=
  if m.any (fun p => p.1 = k) then
    m.map (fun p => if p.1 = k then (k, v) else p)
  else m ++ [(k, v)]

/-- JS truthiness of an optional string (`undefined`/`null`/`""` falsy). -/
def strTruthy : Option String → Bool
  | some s => !s.isEmpty
  | none => false

/-- JS truthiness of an optional metric reference (only the empty string is
a falsy reference). -/
def tpmTruthy : Option TypeParamMetric → Bool
  | some (.str s) => !s.isEmpty
  | some (.obj _ _ _) => true
  | none => false

def tpmName : TypeParamMetric → String
  | .str s => s
  | .obj n _ _ => n

/-- The filter carried by a metric reference when the reference is an object
with a truthy `filter` (`typeof t === 'object' && t.filter`). -/
def tpmFilter : TypeParamMetric → Option String
  | .str _ => none
  | .obj _ _ f => if strTruthy f then f else none

/-- `combineFilters(existingFilter, newFilter)` (filter_utils.js). -/
def combineFilters (existingFilter newFilter : String) : String :=
  if existingFilter = "" then newFilter
  else if newFilter = "" then existingFilter
  else "(" ++ existingFilter ++ ") and " ++ newFilter

/-- `rebuildFilteredFormula(aggFunc, measureExpr, combinedFilter)`
(filter_utils.js); a `null` measure expression renders as the string
`null` inside the template literal. -/
def rebuildFilteredFormula (aggFunc : String) (measureExpr : Option String)
    (combinedFilter : String) : String :=
  if aggFunc = "countif" then aggFunc ++ "(" ++ combinedFilter ++ ")"
  else aggFunc ++ "([" ++ measureExpr.getD "null" ++ "]," ++ combinedFilter ++ ")"

/-- `buildMeasureFormula(measure)` (build_formula_object.js); the
display-name flag is `false`, so `userFriendlyExpr` is the raw expression. -/
def buildMeasureFormula (measure : Measure) : FormulaObject :=
  let userFriendlyExpr :=
    if userFriendlyColumnNameFlag then
      String.mk (convertToUserFriendlyName measure.expr.toList)
    else measure.expr
  let p :=
    match measure.agg with
    | "count_distinct" => ("countdistinct", "countdistinct([" ++ userFriendlyExpr ++ "])")
    | "sum" => ("sum", "sum([" ++ userFriendlyExpr ++ "])")
    | "count" => ("count", "count([" ++ userFriendlyExpr ++ "])")
    | "avg" => ("avg", "avg([" ++ userFriendlyExpr ++ "])")
    | "min" => ("min", "min([" ++ userFriendlyExpr ++ "])")
    | "max" => ("max", "max([" ++ userFriendlyExpr ++ "])")
    | agg => (agg, agg ++ "([" ++ userFriendlyExpr ++ "])")
  { formula := p.2
    aggFunc := some (some p.1)
    measureExpr := some userFriendlyExpr
    existingFilter := none }

/-- `buildMeasureFormulaWithFilter(measure, filterStr, modelName)`
(build_formula_object.js).  The aggregation map yields `null` for an
unsupported aggregation (rendered as the string `null` in the template
literal); for `count` the measure expression is omitted (`countif`). -/
def buildMeasureFormulaWithFilter (cfs : String → String → String)
    (measure : Measure) (filterStr modelName : String) : FormulaObject :=
  let measureExpr := measure.expr
  let convertedFilter := cfs filterStr modelName
  let aggFunc : Option String :=
    if measure.agg = "sum" then some "sumif"
    else if measure.agg = "avg" then some "avgif"
    else if measure.agg = "min" then some "minif"
    else if measure.agg = "max" then some "maxif"
    else if measure.agg = "count" then some "countif"
    else if measure.agg = "count_distinct" then some "countdistinctif"
    else none
  let formula :=
    if measure.agg = "count" then
      aggFunc.getD "null" ++ "(" ++ convertedFilter ++ ")"
    else
      aggFunc.getD "null" ++ "([" ++ measureExpr ++ "]," ++ convertedFilter ++ ")"
  { formula := formula
    aggFunc := some aggFunc
    measureExpr := if measure.agg = "count" then none else some measureExpr
    existingFilter := some convertedFilter }

/-- `buildSigmaMeasureFormula(typeParamMetric, semanticModel, allMetrics,
convertedMetrics, convertMetricToSigma)` (metrics/formula/build_sigma_formula.js).
The converter `cmts` is the `convertMetricToSigma` function handed in by the
caller (the source passes it as a parameter to break the module cycle);
the result pairs the returned formula-or-null with the updated cache, and
the outer `none` propagates a recursion that did not complete. -/
def buildSigmaMeasureFormula (cfs : String → String → String)
    (cmts : Metric → SemanticModel → List Metric → ConvertedMetrics →
      Option (SigmaMetric × ConvertedMetrics))
    (typeParamMetric : TypeParamMetric) (semanticModel : SemanticModel)
    (allMetrics : List Metric) (convertedMetrics : ConvertedMetrics) :
    Option (Option String × ConvertedMetrics) :=
  let metricName := tpmName typeParamMetric
  match semanticModel.measures.find? (fun m => m.name = metricName) with
  | some measure =>
      -- the referenced name is a measure of this model
      let sigmaFormulaObject :=
        match tpmFilter typeParamMetric with
        | some filterStr =>
            buildMeasureFormulaWithFilter cfs measure filterStr semanticModel.name
        | none => buildMeasureFormula measure
      some (some sigmaFormulaObject.formula,
        cmSet convertedMetrics metricName sigmaFormulaObject)
  | none =>
    match allMetrics.find? (fun m => m.name = metricName) with
    | none => some (none, convertedMetrics)
    | some referencedMetric =>
      -- resolve the referenced metric, converting it now if not yet cached
      let afterRef : Option (Option FormulaObject × ConvertedMetrics) :=
        match cmGet convertedMetrics metricName with
        | some obj => some (some obj, convertedMetrics)
        | none =>
            match cmts referencedMetric semanticModel allMetrics convertedMetrics with
            | none => none
            | some (convertedMetric, cm2) =>
                if strTruthy convertedMetric.formula then
                  some (cmGet cm2 metricName, cm2)
                else some (none, cm2)
      match afterRef with
      | none => none
      | some (obj?, cm) =>
        match obj? with
        | none =>
            -- the referenced metric could not be converted: return null
            some (none, cm)
        | some obj =>
            match tpmFilter typeParamMetric with
            | some newFilterStr =>
                let convertedNewFilter := cfs newFilterStr semanticModel.name
                match obj.aggFunc, obj.existingFilter with
                | some (some a), some existingFilter =>
                    if a = "" then
                      -- aggFunc "" is falsy: fall through to the cached formula
                      some (some obj.formula, cm)
                    else
                      let combinedFilter := combineFilters existingFilter convertedNewFilter
                      let combinedFormula :=
                        rebuildFilteredFormula a obj.measureExpr combinedFilter
                      some (some combinedFormula,
                        cmSet cm metricName
                          { formula := combinedFormula
                            aggFunc := some (some a)
                            measureExpr := obj.measureExpr
                            existingFilter := some combinedFilter })
                | _, _ =>
                    -- no usable decomposition: the cached formula is returned
                    -- unchanged and the new filter is dropped
                    some (some obj.formula, cm)
            | none => some (some obj.formula, cm)

/-- `parseExprParts(expr)` (metrics/metric_converter.js): the identifier
matches of `/\b[a-zA-Z_][a-zA-Z0-9_]*\b/g`, deduplicated preserving first
occurrence (`[...new Set(parts)]`). -/
def dedupeFirstAux : List String → List String → List String
  | [], _ => []
  | x :: rest, seen =>
      if seen.contains x then dedupeFirstAux rest seen
      else x :: dedupeFirstAux rest (x :: seen)

def parseExprParts (expr : Option String) : List String :=
  match expr with
  | none => []
  | some e => dedupeFirstAux ((identifierTokens e.toList).map
      (fun t => String.mk t.2)) []

/-- `findMetricInTypeParams(typeParamMetrics, exprPart)`: alias matches take
priority over name matches; a bare-string entry has neither an `alias` nor a
`name` property (both `undefined`), so it never matches. -/
def findMetricInTypeParams (typeParamMetrics : Option (List TypeParamMetric))
    (exprPart : String) : Option TypeParamMetric :=
  match typeParamMetrics with
  | none => none
  | some refs =>
      match refs.find? (fun r =>
        match r with
        | .obj _ (some a) _ => a = exprPart
        | _ => false) with
      | some r => some r
      | none =>
          refs.find? (fun r =>
            match r with
            | .obj n _ _ => n = exprPart
            | .str _ => false)

/-- One `\b part \b` → formula global replacement
(`new RegExp(`\\b${part}\\b`, 'g')`).  The fuel starts at the string length;
every step consumes at least one character, so it never runs out. -/
def replaceWordAllAux (word repl : List Char) : Nat → List Char → Option Char →
    List Char
  | _, [], _ => []
  | 0, s, _ => s
  | fuel + 1, c :: rest, prev =>
      let boundaryBefore :=
        match prev with
        | none => true
        | some p => !isWordChar p
      if !word.isEmpty && boundaryBefore && patMatch word (c :: rest) &&
          (match (c :: rest).drop word.length with
           | [] => true
           | c2 :: _ => !isWordChar c2) then
        repl ++ replaceWordAllAux word repl fuel ((c :: rest).drop word.length)
          word.getLast?
      else c :: replaceWordAllAux word repl fuel rest (some c)

def replaceWordAll (s word repl : List Char) : List Char :=
  replaceWordAllAux word repl s.length s none

/-- The first loop of `convertExpression`: map every expression part to the
formula of the metric reference it names; a part with no matching reference
or no buildable formula aborts with `null`. -/
def convertExpressionParts (cfs : String → String → String)
    (cmts : Metric → SemanticModel → List Metric → ConvertedMetrics →
      Option (SigmaMetric × ConvertedMetrics))
    (typeParamMetrics : Option (List TypeParamMetric))
    (semanticModel : SemanticModel) (allMetrics : List Metric) :
    List String → ConvertedMetrics →
    Option (Option (List (String × String)) × ConvertedMetrics)
  | [], cm => some (some [], cm)
  | part :: rest, cm =>
      match findMetricInTypeParams typeParamMetrics part with
      | none => some (none, cm)
      | some typeParamMetric =>
          match buildSigmaMeasureFormula cfs cmts typeParamMetric semanticModel
            allMetrics cm with
          | none => none
          | some (formula?, cm2) =>
              if strTruthy formula? then
                match convertExpressionParts cfs cmts typeParamMetrics
                  semanticModel allMetrics rest cm2 with
                | none => none
                | some (none, cm3) => some (none, cm3)
                | some (some formulas, cm3) =>
                    some (some ((part, formula?.getD "") :: formulas), cm3)
              else some (none, cm2)

/-- `convertExpression(expr, typeParamMetrics, semanticModel, allMetrics,
convertedMetrics)` (metrics/metric_converter.js). -/
def convertExpression (cfs : String → String → String)
    (cmts : Metric → SemanticModel → List Metric → ConvertedMetrics →
      Option (SigmaMetric × ConvertedMetrics))
    (expr : Option String) (typeParamMetrics : Option (List TypeParamMetric))
    (semanticModel : SemanticModel) (allMetrics : List Metric)
    (convertedMetrics : ConvertedMetrics) :
    Option (Option String × ConvertedMetrics) :=
  if !strTruthy expr then some (none, convertedMetrics)
  else
    let parts := parseExprParts expr
    if parts = [] then some (none, convertedMetrics)
    else
      match convertExpressionParts cfs cmts typeParamMetrics semanticModel
        allMetrics parts convertedMetrics with
      | none => none
      | some (none, cm) => some (none, cm)
      | some (some formulas, cm) =>
          let convertedExpr := parts.foldl
            (fun acc part =>
              match formulas.find? (fun pf => pf.1 = part) with
              | some pf => replaceWordAll acc part.toList pf.2.toList
              | none => acc)
            (expr.getD "").toList
          some (some (String.mk convertedExpr), cm)

/-- JS `a || b` on an optional string (empty string is falsy). -/
def jsOr (a : Option String) (b : String) : String :=
  match a with
  | some s => if s = "" then b else s
  | none => b

/-- `convertMetricToSigma(metric, semanticModel, allMetrics,
convertedMetrics)` (metrics/metric_converter.js), indexed by recursion fuel:
each recursive re-entry through `buildSigmaMeasureFormula` consumes one unit
(i.e. the callback passed to it is the converter at one unit less); `none`
models a recursion that did not complete — the source has no guard against
re-entry before the cache entry is written. -/
def convertMetricToSigma (cfs : String → String → String) :
    Nat → Metric → SemanticModel → List Metric → ConvertedMetrics →
    Option (SigmaMetric × ConvertedMetrics)
  | 0, _, _, _, _ => none
  | fuel + 1, metric, semanticModel, allMetrics, convertedMetrics =>
      let cmts := convertMetricToSigma cfs fuel
      let base : SigmaMetric :=
        { id := metric.name
          name := metric.name
          description := jsOr metric.description (jsOr metric.label metric.name)
          formula := none }
      let afterType : Option (Option String × ConvertedMetrics) :=
        if metric.type = "simple" &&
            strTruthy (metric.type_params.bind TypeParams.measure) then
          -- simple: a synthetic one-part expression over the measure name
          let measureName := (metric.type_params.bind TypeParams.measure).getD ""
          let typeParamMetrics := [TypeParamMetric.obj measureName none
            (if strTruthy metric.filter then metric.filter else none)]
          match convertExpression cfs cmts (some measureName)
            (some typeParamMetrics) semanticModel allMetrics convertedMetrics with
          | none => none
          | some (formula?, cm) =>
              -- copy the formula object from the measure name to the metric
              -- name when it carries an aggFunc field (aggFunc !== undefined)
              match cmGet cm measureName with
              | some o =>
                  if o.aggFunc ≠ none then
                    some (formula?, cmSet cm metric.name o)
                  else some (formula?, cm)
              | none => some (formula?, cm)
        else if metric.type = "derived" && metric.type_params.isSome then
          let tp := metric.type_params.getD ⟨none, none, none, none, none⟩
          if strTruthy tp.expr &&
              (match tp.metrics with
               | some l => decide (0 < l.length)
               | none => false) then
            convertExpression cfs cmts tp.expr tp.metrics semanticModel
              allMetrics convertedMetrics
          else some (none, convertedMetrics)
        else if metric.type = "ratio" && metric.type_params.isSome then
          let tp := metric.type_params.getD ⟨none, none, none, none, none⟩
          if tpmTruthy tp.numerator && tpmTruthy tp.denominator then
            match buildSigmaMeasureFormula cfs cmts (tp.numerator.getD (.str ""))
              semanticModel allMetrics convertedMetrics with
            | none => none
            | some (numeratorFormula, cm1) =>
                match buildSigmaMeasureFormula cfs cmts
                  (tp.denominator.getD (.str "")) semanticModel allMetrics cm1 with
                | none => none
                | some (denominatorFormula, cm2) =>
                    if strTruthy numeratorFormula && strTruthy denominatorFormula then
                      some (some ("(" ++ numeratorFormula.getD "" ++ ") / (" ++
                        denominatorFormula.getD "" ++ ")"), cm2)
                    else some (none, cm2)
          else some (none, convertedMetrics)
        else some (none, convertedMetrics)
      match afterType with
      | none => none
      | some (formula?, cm) =>
          let cmFinal :=
            if strTruthy formula? then
              match cmGet cm metric.name with
              | some _ => cm
              | none =>
                  cmSet cm metric.name
                    { formula := formula?.getD ""
                      aggFunc := none
                      measureExpr := none
                      existingFilter := none }
            else cm
          some ({ base with formula := formula? }, cmFinal)

/-- One attempted match of `DIMENSION_REF_PATTERN`
(`/Dimension\(['"]([^'"]+)['"]\)/g`, dimension_parser.js) at the head of the
character list: the literal `Dimension(`, an opening quote, a nonempty run of
non-quote characters (the capture), any quote, `)`.  Returns the capture and
the remainder after the whole match. -/
def dimRefMatchAt (cs : List Char) : Option (String × List Char) :=
  let lit := "Dimension(".toList
  if patMatch lit cs then
    match cs.drop lit.length with
    | q :: rest =>
        if q = '\'' || q = '"' then
          let cap := rest.takeWhile (fun c => !(c = '\'' || c = '"'))
          if cap.isEmpty then none
          else
            match rest.drop cap.length with
            | q2 :: ')' :: rest2 =>
                if q2 = '\'' || q2 = '"' then some (String.mk cap, rest2)
                else none
            | _ => none
        else none
    | [] => none
  else none

/-- The global scan of `str.match(DIMENSION_REF_PATTERN)`: left to right,
resuming after each match.  Fuel starts at the list length; each step
consumes at least one character. -/
def findDimRefsAux : Nat → List Char → List String
  | 0, _ => []
  | _, [] => []
  | fuel + 1, c :: rest =>
      match dimRefMatchAt (c :: rest) with
      | some (cap, after) => cap :: findDimRefsAux fuel after
      | none => findDimRefsAux fuel rest

/-- `findDimensionReferences(str)` (dimension_parser.js): each global match
mapped to its quoted capture. -/
def findDimensionReferences (s : String) : List String :=
  findDimRefsAux s.toList.length s.toList

/-- `extractDimensionReferences(metric)` (dimension_parser.js): dimension
references collected from the filters of `type_params.metrics` entries; a
bare-string entry has no `filter` property. -/
def extractDimensionReferences (metric : Metric) : List String :=
  match metric.type_params.bind TypeParams.metrics with
  | none => []
  | some refs =>
      refs.foldl (fun acc refMetric =>
        match refMetric with
        | .str _ => acc
        | .obj _ _ filter =>
            if strTruthy filter then
              acc ++ findDimensionReferences (filter.getD "")
            else acc) []

/-- `String.prototype.split(sep)` for a nonempty separator: fueled at the
input length, each step consumes at least one character. -/
def splitOnAux (sep : List Char) : Nat → List Char → List Char →
    List (List Char)
  | _, acc, [] => [acc.reverse]
  | 0, acc, s => [acc.reverse ++ s]
  | fuel + 1, acc, c :: rest =>
      if !sep.isEmpty && patMatch sep (c :: rest) then
        acc.reverse :: splitOnAux sep fuel [] ((c :: rest).drop sep.length)
      else splitOnAux sep fuel (c :: acc) rest

def splitOnStr (sep s : String) : List String :=
  (splitOnAux sep.toList s.toList.length [] s.toList).map String.mk

/-- `parseDimensionReference(dimRef)` (dimension_parser.js): split on `__`;
with at least two parts the first is the model name, otherwise the model
name is `null`.  The display-name flag is `false`, so the dimension name is
taken raw. -/
def parseDimensionReference (dimRef : String) : Option String × String :=
  let parts := splitOnStr "__" dimRef
  let friendly := fun (s : String) =>
    if userFriendlyColumnNameFlag then
      String.mk (convertToUserFriendlyName s.toList)
    else s
  if 2 ≤ parts.length then
    (some (parts.headD ""), friendly ((parts.drop 1).headD ""))
  else (none, friendly dimRef)

/-- `canAddMetricToModel(metric, semanticModel, allMetrics)`
(metric_analyzer.js): referenced metrics must exist as a measure of the
model or a metric of the catalog; ratio numerator/denominator likewise; each
dimension reference's model name must name one of the model's entities (a
`null` model name never does).  A simple metric's own measure is never
checked. -/
def canAddMetricToModel (metric : Metric) (semanticModel : SemanticModel)
    (allMetrics : List Metric) : Bool :=
  let refOk := fun (metricName : String) =>
    semanticModel.measures.any (fun m => m.name = metricName) ||
      allMetrics.any (fun m => m.name = metricName)
  let metricsCheck :=
    match metric.type_params.bind TypeParams.metrics with
    | none => true
    | some refs => refs.all (fun refMetric => refOk (tpmName refMetric))
  let ratioCheck :=
    if metric.type = "ratio" && metric.type_params.isSome then
      let tp := metric.type_params.getD ⟨none, none, none, none, none⟩
      let checkRef := fun (r : Option TypeParamMetric) =>
        if tpmTruthy r then refOk (tpmName (r.getD (.str ""))) else true
      checkRef tp.numerator && checkRef tp.denominator
    else true
  let dimCheck :=
    (extractDimensionReferences metric).all (fun dimRef =>
      match (parseDimensionReference dimRef).1 with
      | some mn => semanticModel.entities.any (fun e => e.name = mn)
      | none => false)
  metricsCheck && ratioCheck && dimCheck

/-- The simple-metric pass of `convertSemantics`
(build_sigma_formula.js lines 430-448), returning the metrics pushed to the
current model's element, the deferred `crossModelMetrics`, and the final
cache: an addable metric is converted and pushed only when its formula is
truthy; a non-addable metric is pushed to the cross-model list. -/
def processSimpleMetricsAux (cfs : String → String → String) (fuel : Nat)
    (semanticModel : SemanticModel) (allMetrics : List Metric) :
    List Metric → ConvertedMetrics →
    Option (List SigmaMetric × List Metric × ConvertedMetrics)
  | [], cm => some ([], [], cm)
  | metric :: rest, cm =>
      if canAddMetricToModel metric semanticModel allMetrics then
        match convertMetricToSigma cfs fuel metric semanticModel allMetrics cm with
        | none => none
        | some (sigmaMetric, cm2) =>
            match processSimpleMetricsAux cfs fuel semanticModel allMetrics
              rest cm2 with
            | none => none
            | some (outMetrics, outCross, cmF) =>
                if strTruthy sigmaMetric.formula then
                  some (sigmaMetric :: outMetrics, outCross, cmF)
                else some (outMetrics, outCross, cmF)
      else
        match processSimpleMetricsAux cfs fuel semanticModel allMetrics
          rest cm with
        | none => none
        | some (outMetrics, outCross, cmF) =>
            some (outMetrics, metric :: outCross, cmF)

def processSimpleMetrics (cfs : String → String → String) (fuel : Nat)
    (sourceMetrics : List Metric) (semanticModel : SemanticModel)
    (convertedMetrics : ConvertedMetrics) :
    Option (List SigmaMetric × List Metric × ConvertedMetrics) :=
  processSimpleMetricsAux cfs fuel semanticModel sourceMetrics
    (sourceMetrics.filter (fun m => m.type = "simple")) convertedMetrics


/-- The filter converter handed to the metric pipeline; its exact behaviour
is irrelevant to the claims proved here, which hold for every converter, so
witnesses instantiate it with the identity on the filter string. -/
def cfsId : String → String → String := fun s _ => s

/-- A simple metric whose `type_params.measure` names a measure that exists
neither in the current model nor as a metric of the catalog. -/
def metricC7 : Metric :=
  { name := "m1", type := "simple",
    type_params := some ⟨some "missing_measure", none, none, none, none⟩,
    filter := none, description := none, label := none }

/-- A semantic model declaring no measures and no entities. -/
def modelC7 : SemanticModel :=
  { name := "orders", measures := [], entities := [] }

set_option maxRecDepth 100000 in
/-- C7: a simple metric whose referenced measure is absent from the current
model (and is not a catalog metric) is NOT deferred to the cross-model set:
`canAddMetricToModel` never inspects a simple metric's own measure and
returns `true`, so the dispatch takes the convert branch, the conversion
yields a null formula, and the metric is neither pushed to the model's
metric list nor to `crossModelMetrics` — it is silently discarded,
contradicting the claimed (and JSDoc-documented) behaviour. -/
theorem simple_metric_missing_measure_silently_dropped :
    canAddMetricToModel metricC7 modelC7 [metricC7] = true ∧
    processSimpleMetrics cfsId 5 [metricC7] modelC7 [] = some ([], [], []) := by
  decide

theorem strTruthy_some_of_ne (f : String) (hf : f ≠ "") :
    strTruthy (some f) = true := by
  simp [strTruthy, Bool.eq_false_iff, ne_eq, String.isEmpty_iff, hf]

theorem tpmFilter_obj_of_ne (nm : String) (al : Option String) (f : String)
    (hf : f ≠ "") : tpmFilter (.obj nm al (some f)) = some f := by
  simp [tpmFilter, strTruthy_some_of_ne f hf]

/-- C8: when a metric reference carrying a (truthy) filter targets a name
that is not a measure of the model but is a catalog metric whose cached
formula object holds a usable aggregation function `a` and an existing
filter `ex`, the resolver returns the formula rebuilt from the cached
aggregation function and measure expression over the AND-combination of the
two filters (`countif(combined)` when `a = countif`, otherwise
`a([measureExpr],combined)`), and re-caches that rebuilt object — the
cached formula string itself is never wrapped in a second filter call. -/
theorem buildSigmaMeasureFormula_combined_filter_rebuild
    (cfs : String → String → String)
    (cmts : Metric → SemanticModel → List Metric → ConvertedMetrics →
      Option (SigmaMetric × ConvertedMetrics))
    (nm : String) (al : Option String) (f : String) (sm : SemanticModel)
    (am : List Metric) (cm : ConvertedMetrics) (obj : FormulaObject)
    (refM : Metric) (a ex : String)
    (hf : f ≠ "")
    (hmeas : sm.measures.find? (fun m => m.name = nm) = none)
    (hcat : am.find? (fun m => m.name = nm) = some refM)
    (hcache : cmGet cm nm = some obj)
    (hagg : obj.aggFunc = some (some a)) (ha : a ≠ "")
    (hex : obj.existingFilter = some ex) :
    buildSigmaMeasureFormula cfs cmts (.obj nm al (some f)) sm am cm =
      some (some (rebuildFilteredFormula a obj.measureExpr
          (combineFilters ex (cfs f sm.name))),
        cmSet cm nm
          { formula := rebuildFilteredFormula a obj.measureExpr
              (combineFilters ex (cfs f sm.name))
            aggFunc := some (some a)
            measureExpr := obj.measureExpr
            existingFilter := some (combineFilters ex (cfs f sm.name)) }) ∧
    (ex ≠ "" → cfs f sm.name ≠ "" →
      combineFilters ex (cfs f sm.name) =
        "(" ++ ex ++ ") and " ++ cfs f sm.name) ∧
    (a = "countif" →
      rebuildFilteredFormula a obj.measureExpr (combineFilters ex (cfs f sm.name)) =
        "countif(" ++ combineFilters ex (cfs f sm.name) ++ ")") ∧
    (a ≠ "countif" →
      rebuildFilteredFormula a obj.measureExpr (combineFilters ex (cfs f sm.name)) =
        a ++ "([" ++ obj.measureExpr.getD "null" ++ "]," ++
          combineFilters ex (cfs f sm.name) ++ ")") := by
  refine ⟨?_, ?_, ?_, ?_⟩
  · unfold buildSigmaMeasureFormula
    simp only [tpmName, hmeas, hcat, hcache, tpmFilter_obj_of_ne nm al f hf,
      hagg, hex, if_neg ha]
  · intro h1 h2
    simp [combineFilters, h1, h2]
  · intro h1
    simp [rebuildFilteredFormula, h1]
  · intro h1
    simp [rebuildFilteredFormula, h1]

/-- A simple metric over measure `rev`, carrying its own filter. -/
def metricC8 : Metric :=
  { name := "msum", type := "simple",
    type_params := some ⟨some "rev", none, none, none, none⟩,
    filter := some "f1", description := none, label := none }

/-- The formula object cached for `msum` after resolving it with its own
filter `f1` (the output of `buildMeasureFormulaWithFilter` for a `sum`
measure over `revenue`). -/
def objC8 : FormulaObject :=
  ⟨"sumif([revenue],f1)", some (some "sumif"), some "revenue", some "f1"⟩

/-- Witness for C8: a reference to the filtered metric `msum` carrying the
new filter `f2` yields `sumif([revenue],(f1) and f2)` — one `sumif` call
over the AND-combined filter, rebuilt from the cached parts. -/
theorem buildSigmaMeasureFormula_combined_filter_rebuild_witness :
    buildSigmaMeasureFormula cfsId (fun _ _ _ _ => none)
        (.obj "msum" none (some "f2")) ⟨"orders", [], []⟩ [metricC8]
        [("msum", objC8)] =
      some (some "sumif([revenue],(f1) and f2)",
        [("msum", ⟨"sumif([revenue],(f1) and f2)", some (some "sumif"),
          some "revenue", some "(f1) and f2"⟩)]) ∧
    combineFilters "f1" (cfsId "f2" "orders") = "(f1) and f2" ∧
    rebuildFilteredFormula "sumif" (some "revenue")
      (combineFilters "f1" (cfsId "f2" "orders")) =
      "sumif([revenue],(f1) and f2)" := by
  have h := buildSigmaMeasureFormula_combined_filter_rebuild cfsId
    (fun _ _ _ _ => none) "msum" none "f2" ⟨"orders", [], []⟩ [metricC8]
    [("msum", objC8)] objC8 metricC8 "sumif" "f1"
    (by decide) (by decide) (by decide) (by decide) (by decide) (by decide)
    (by decide)
  exact ⟨h.1.trans (by decide),
    (h.2.1 (by decide) (by decide)).trans (by decide),
    (h.2.2.2 (by decide)).trans (by decide)⟩

/-- A derived metric named `a` whose expression references `a` itself. -/
def selfRefMetric : Metric :=
  { name := "a", type := "derived",
    type_params := some ⟨none, some [.obj "a" none none], some "a", none, none⟩,
    filter := none, description := none, label := none }

/-- A semantic model with no measures, so the self-reference resolves
through the metric catalog. -/
def selfRefModel : SemanticModel :=
  { name := "orders", measures := [], entities := [] }

theorem selfref_build
    (cmts : Metric → SemanticModel → List Metric → ConvertedMetrics →
      Option (SigmaMetric × ConvertedMetrics))
    (h : cmts selfRefMetric selfRefModel [selfRefMetric] [] = none) :
    buildSigmaMeasureFormula cfsId cmts (.obj "a" none none) selfRefModel
      [selfRefMetric] [] = none := by
  simp only [selfRefMetric, selfRefModel] at h
  unfold buildSigmaMeasureFormula
  simp +decide [selfRefModel, selfRefMetric, tpmName, cmGet, h]

theorem selfref_convertExpression
    (cmts : Metric → SemanticModel → List Metric → ConvertedMetrics →
      Option (SigmaMetric × ConvertedMetrics))
    (h : cmts selfRefMetric selfRefModel [selfRefMetric] [] = none) :
    convertExpression cfsId cmts (some "a") (some [.obj "a" none none])
      selfRefModel [selfRefMetric] [] = none := by
  have hb := selfref_build cmts h
  have hparts : parseExprParts (some "a") = ["a"] := by decide
  have hfm : findMetricInTypeParams (some [.obj "a" none none]) "a" =
      some (.obj "a" none none) := by decide
  unfold convertExpression
  rw [hparts]
  unfold convertExpressionParts
  simp +decide [hfm, hb]

theorem selfref_diverges_all_fuel :
    ∀ fuel, convertMetricToSigma cfsId fuel selfRefMetric selfRefModel
      [selfRefMetric] [] = none := by
  intro fuel
  induction fuel with
  | zero => rfl
  | succ n ih =>
      have hconv := selfref_convertExpression (convertMetricToSigma cfsId n) ih
      simp only [selfRefMetric, selfRefModel] at hconv
      unfold convertMetricToSigma
      simp +decide [selfRefMetric, selfRefModel, strTruthy, hconv]

/-- C9 counterexample: resolving the self-referential derived metric `a`
(expression `a`, referencing the catalog metric `a`) never completes at any
recursion budget: the cache entry for a metric is written only after its
conversion finishes, so the converter re-enters itself on an unchanged
cache before any memoization can take effect. -/
theorem convertMetricToSigma_selfref_diverges :
    ¬ ∃ fuel, convertMetricToSigma cfsId fuel selfRefMetric selfRefModel
      [selfRefMetric] [] ≠ none := by
  rintro ⟨fuel, hne⟩
  exact hne (selfref_diverges_all_fuel fuel)

/-- C9 amended: the memoization that does exist — once a referenced name is
present in the `convertedMetrics` cache, resolving a reference to it never
re-enters the metric converter: the result is the same for every converter
callback, and it always completes. -/
theorem buildSigmaMeasureFormula_memo_hit_no_reentry
    (cfs : String → String → String)
    (cmts cmts' : Metric → SemanticModel → List Metric → ConvertedMetrics →
      Option (SigmaMetric × ConvertedMetrics))
    (tpm : TypeParamMetric) (sm : SemanticModel) (am : List Metric)
    (cm : ConvertedMetrics) (obj : FormulaObject)
    (hcache : cmGet cm (tpmName tpm) = some obj) :
    buildSigmaMeasureFormula cfs cmts tpm sm am cm =
      buildSigmaMeasureFormula cfs cmts' tpm sm am cm ∧
    (buildSigmaMeasureFormula cfs cmts tpm sm am cm).isSome = true := by
  constructor
  · unfold buildSigmaMeasureFormula
    simp only [hcache]
  · unfold buildSigmaMeasureFormula
    simp only [hcache]
    repeat' split
    all_goals rfl

/-- A derived metric cached with only a formula string (the fallback store
of `convertMetricToSigma`). -/
def metricC10 : Metric :=
  { name := "der", type := "derived",
    type_params := some ⟨none, some [.obj "rev" none none], some "rev + rev",
      none, none⟩,
    filter := none, description := none, label := none }

/-- The fallback cache entry for `der`: a bare formula with no aggregation
function, measure expression or existing filter. -/
def objC10 : FormulaObject := ⟨"x + y", none, none, none⟩

/-- Witness for the C9 amended theorem: with `der` already cached, the
resolver returns the same completed result under two different converter
callbacks. -/
theorem buildSigmaMeasureFormula_memo_hit_no_reentry_witness :
    (buildSigmaMeasureFormula cfsId (fun _ _ _ _ => none)
        (.obj "der" none (some "F")) ⟨"orders", [], []⟩ [metricC10]
        [("der", objC10)] =
      buildSigmaMeasureFormula cfsId
        (fun m _ _ cm => some (⟨m.name, m.name, "", some "1"⟩, cm))
        (.obj "der" none (some "F")) ⟨"orders", [], []⟩ [metricC10]
        [("der", objC10)]) ∧
    (buildSigmaMeasureFormula cfsId (fun _ _ _ _ => none)
        (.obj "der" none (some "F")) ⟨"orders", [], []⟩ [metricC10]
        [("der", objC10)]).isSome = true :=
  buildSigmaMeasureFormula_memo_hit_no_reentry cfsId _ _
    (.obj "der" none (some "F")) ⟨"orders", [], []⟩ [metricC10]
    [("der", objC10)] objC10 (by decide)

/-- C10: a metric reference carrying a (truthy) filter that targets a
catalog metric whose cached formula object has no existing filter (as for
an unfiltered simple metric, or a derived/ratio metric cached with only a
formula string) resolves to the cached formula unchanged, with the cache
also unchanged: the new filter is silently dropped. -/
theorem buildSigmaMeasureFormula_no_decomposition_filter_dropped
    (cfs : String → String → String)
    (cmts : Metric → SemanticModel → List Metric → ConvertedMetrics →
      Option (SigmaMetric × ConvertedMetrics))
    (nm : String) (al : Option String) (f : String) (sm : SemanticModel)
    (am : List Metric) (cm : ConvertedMetrics) (obj : FormulaObject)
    (refM : Metric)
    (hf : f ≠ "")
    (hmeas : sm.measures.find? (fun m => m.name = nm) = none)
    (hcat : am.find? (fun m => m.name = nm) = some refM)
    (hcache : cmGet cm nm = some obj)
    (hex : obj.existingFilter = none) :
    buildSigmaMeasureFormula cfs cmts (.obj nm al (some f)) sm am cm =
      some (some obj.formula, cm) := by
  unfold buildSigmaMeasureFormula
  simp only [tpmName, hmeas, hcat, hcache, tpmFilter_obj_of_ne nm al f hf]
  rcases hagg : obj.aggFunc with _ | (_ | a) <;> simp [hagg, hex]

/-- Witness for C10: a reference to `der` carrying the filter `F` returns
the cached `x + y` unchanged; the filter is dropped. -/
theorem buildSigmaMeasureFormula_no_decomposition_filter_dropped_witness :
    buildSigmaMeasureFormula cfsId (fun _ _ _ _ => none)
        (.obj "der" none (some "F")) ⟨"orders", [], []⟩ [metricC10]
        [("der", objC10)] =
      some (some "x + y", [("der", objC10)]) := by
  have h := buildSigmaMeasureFormula_no_decomposition_filter_dropped cfsId
    (fun _ _ _ _ => none) "der" none "F" ⟨"orders", [], []⟩ [metricC10]
    [("der", objC10)] objC10 metricC10
    (by decide) (by decide) (by decide) (by decide) (by decide)
  exact h.trans (by decide)

end Metrics
